import Mathlib

/-!
The file handlers of notes-app: `web-app-go/internal/handlers/files.go`

A shallow embedding of `getSafeFilePath` and of the five handlers that use it,
together with the parts of the Go standard library they call
(`strings.HasSuffix/HasPrefix/TrimSuffix`, `filepath.Base/Clean/Join/Abs`),
for a platform whose path separator is `/`.

Modelling conventions.
* A Go `string` is a `List Char`.  The path functions only ever compare
  elements with `/` and `.`, so nothing depends on how the other elements are
  encoded.
* `os.Getwd` is the parameter `wd : Option GoString` (`none`: the call fails).
* The filesystem is a finite map from absolute, lexically clean paths to
  nodes (regular file with content, or directory).  Every call first walks
  the path as the kernel does (`pathError`): a NUL byte is `EINVAL`, a path of
  `PATH_MAX` bytes or a component over `NAME_MAX` bytes is `ENAMETOOLONG`, an
  ancestor that is missing is `ENOENT`, one that is a regular file is
  `ENOTDIR`; the empty path is `ENOENT`.  `WriteFile` needs the directory of
  a new file to exist, `Remove` also removes an empty directory, `ReadDir`
  lists the direct entries sorted by name.  Byte lengths are those of the
  UTF-8 encoding.  Permissions and symbolic links are not part of the model.
* A handler is a function from the request parameters and the filesystem
  state to the response sent and the next state.
-/

namespace NotesApp

/-! ## Go strings -/

abbrev GoString := List Char

/-- Go `strings.HasSuffix`: `len(s) >= len(suffix) && s[len(s)-len(suffix):] == suffix`. -/
def HasSuffix (s suffix : GoString) : Bool :=
  decide (s.length ≥ suffix.length) && (s.drop (s.length - suffix.length) == suffix)

/-- Go `strings.HasPrefix`: `len(s) >= len(prefix) && s[:len(prefix)] == prefix`. -/
def HasPrefix (s pre : GoString) : Bool :=
  decide (s.length ≥ pre.length) && (s.take pre.length == pre)

/-- Go `strings.TrimSuffix`: drop `suffix` once when `s` ends with it. -/
def TrimSuffix (s suffix : GoString) : GoString :=
  if HasSuffix s suffix then s.take (s.length - suffix.length) else s

/-- Go `strings.Join(elems, sep)`. -/
def stringsJoin : List GoString → GoString → GoString
  | [], _ => []
  | [a], _ => a
  | a :: b :: rest, sep => a ++ sep ++ stringsJoin (b :: rest) sep

/-- The literal `".txt"`. -/
def dotTxt : GoString := ['.', 't', 'x', 't']

/-! ## `path/filepath` on a `/` platform -/

/-- Go `os.IsPathSeparator` (unix): `PathSeparator == c`. -/
def IsPathSeparator (c : Char) : Bool := c == '/'

/-- First loop of `filepath.Base`: strip trailing slashes. -/
def stripTrailingSlashes (path : GoString) : GoString :=
  (path.reverse.dropWhile IsPathSeparator).reverse

/-- Second loop of `filepath.Base`: scan back to the last separator and keep
what follows it (the whole string when there is no separator). -/
def lastElement (path : GoString) : GoString :=
  (path.reverse.takeWhile (fun c => !IsPathSeparator c)).reverse

/-- Go `filepath.Base` (the volume name is empty on unix). -/
def Base (path : GoString) : GoString :=
  if path = [] then ['.']
  else
    let path := stripTrailingSlashes path
    let path := lastElement path
    if path = [] then ['/'] else path

/-- The backtracking of a `..` element in `filepath.Clean`, on the output
buffer held in reverse (last written byte first):
`out.w--; for out.w > dotdot && !IsPathSeparator(out.index(out.w)) { out.w-- }`.
After a decrement `out.index(out.w)` is the byte just dropped. -/
def backtrack (dotdot : Nat) : GoString → GoString
  | [] => []
  | c :: rest =>
    if rest.length > dotdot ∧ !IsPathSeparator c then backtrack dotdot rest else rest

/-- The copy loop of a real path element in `filepath.Clean`:
`for ; r < n && !IsPathSeparator(path[r]); r++ { out.append(path[r]) }`.
Returns the unread input and the (reversed) output buffer. -/
def copyElement : GoString → GoString → GoString × GoString
  | [], out => ([], out)
  | c :: rest, out =>
    if IsPathSeparator c then (c :: rest, out) else copyElement rest (c :: out)

/-- The main loop `for r < n` of `filepath.Clean`.  `path` is the unread input
`path[r:]`, `out` the output buffer `buf[:w]` held in reverse, `dotdot` the
index where `..` must stop.  Every iteration reads at least one byte, so a
`fuel` of the input length is never exhausted. -/
def cleanLoop (rooted : Bool) : Nat → GoString → GoString → Nat → GoString
  | 0, _, out, _ => out
  | _ + 1, [], out, _ => out
  | fuel + 1, c :: rest, out, dotdot =>
    if IsPathSeparator c then
      -- empty path element
      cleanLoop rooted fuel rest out dotdot
    else if c = '.' ∧ (rest = [] ∨ rest.head?.map IsPathSeparator = some true) then
      -- . element
      cleanLoop rooted fuel rest out dotdot
    else if c = '.' ∧ rest.head? = some '.' ∧
        (rest.tail = [] ∨ rest.tail.head?.map IsPathSeparator = some true) then
      -- .. element: remove to last separator
      if out.length > dotdot then
        cleanLoop rooted fuel rest.tail (backtrack dotdot out) dotdot
      else if !rooted then
        let out1 := if out.length > 0 then '/' :: out else out
        let out2 := '.' :: '.' :: out1
        cleanLoop rooted fuel rest.tail out2 out2.length
      else
        cleanLoop rooted fuel rest.tail out dotdot
    else
      -- real path element: add slash if needed, copy element
      let out1 :=
        if (rooted && out.length != 1) || (!rooted && out.length != 0) then '/' :: out else out
      let (rest1, out2) := copyElement (c :: rest) out1
      cleanLoop rooted fuel rest1 out2 dotdot

/-- Go `filepath.Clean` (unix: no volume name, `FromSlash` is the identity). -/
def Clean (path : GoString) : GoString :=
  match path with
  | [] => ['.']
  | c :: rest =>
    let rooted := IsPathSeparator c
    let out :=
      if rooted then cleanLoop rooted (path.length) rest ['/'] 1
      else cleanLoop rooted (path.length) path [] 0
    -- Turn empty string into "."
    if out.length = 0 then ['.'] else out.reverse

/-- Go `filepath.Join` (unix `join`): clean the `/`-joined elements starting
at the first non-empty one; the empty string when all are empty. -/
def Join (elem : List GoString) : GoString :=
  match elem.dropWhile (fun e => e == []) with
  | [] => []
  | rest => Clean (stringsJoin rest ['/'])

/-- Go `filepath.IsAbs` (unix): `strings.HasPrefix(path, "/")`. -/
def IsAbs (path : GoString) : Bool := HasPrefix path ['/']

/-- Errors of the `os` package that the handlers tell apart. -/
inductive OsError
  | ErrInvalid
  | ENOENT
  | EISDIR
  | ENOTDIR
  | ENOTEMPTY
  | ENAMETOOLONG
  | EINVAL
  | getwdFailed
  deriving DecidableEq

/-- Go `filepath.Abs` (`unixAbs`): the pair `(string, error)`. -/
def Abs (wd : Option GoString) (path : GoString) : GoString × Option OsError :=
  if IsAbs path then (Clean path, none)
  else
    match wd with
    | none => ([], some OsError.getwdFailed)
    | some w => (Join [w, path], none)

/-! ## `getSafeFilePath` -/

/-- Source `getSafeFilePath` (files.go, lines 27-40), with the package
variable `filesDir` and the working directory as parameters.  Both errors of
`filepath.Abs` are discarded, as in the source. -/
def getSafeFilePath (wd : Option GoString) (filesDir : GoString) (filename : GoString) :
    Except OsError (GoString × GoString) :=
  let safeName := Base filename
  let safeName := if !HasSuffix safeName dotTxt then safeName ++ dotTxt else safeName
  let fullPath := Join [filesDir, safeName]
  let resolvedPath := (Abs wd fullPath).1
  let resolvedDir := (Abs wd filesDir).1
  if !HasPrefix resolvedPath (resolvedDir ++ ['/']) && resolvedPath != resolvedDir then
    Except.error OsError.ErrInvalid
  else
    Except.ok (resolvedPath, safeName)

/-! ## The filesystem and the `os` / `ioutil` calls -/

/-- What a path names: a regular file with its content, or a directory. -/
inductive Node
  | file (content : GoString)
  | dir
  deriving DecidableEq

/-- A filesystem state: the absolute, lexically clean paths that exist. -/
abbrev FS := List (GoString × Node)

/-- The node a path names.  The empty path names nothing. -/
def fsLookup : FS → GoString → Option Node
  | [], _ => none
  | (q, nd) :: rest, p => if p = [] then none else if q = p then some nd else fsLookup rest p

/-- Bind a path to a node: in place when the path exists, as a new entry otherwise. -/
def fsSet (fs : FS) (p : GoString) (nd : Node) : FS :=
  if (fsLookup fs p).isSome then fs.map (fun e => if e.1 = p then (p, nd) else e)
  else fs ++ [(p, nd)]

/-- Unbind a path. -/
def fsRemove (fs : FS) (p : GoString) : FS :=
  fs.filter (fun e => e.1 ≠ p)

/-- The directory part of a path: what precedes its last separator (`/` for
an entry of the filesystem root). -/
def parentDir (p : GoString) : GoString :=
  let d := (p.reverse.dropWhile (fun c => !IsPathSeparator c)).reverse
  if d.length ≤ 1 then d else d.dropLast

/-- The name under which `q` is a direct entry of directory `dir`, if it is one. -/
def childName (dir q : GoString) : Option GoString :=
  let pre := if dir = ['/'] then dir else dir ++ ['/']
  if HasPrefix q pre then
    let name := q.drop pre.length
    if name ≠ [] ∧ '/' ∉ name then some name else none
  else none

/-- Go `fs.FileInfo`, as far as the handlers read it. -/
structure FileInfo where
  Name : GoString
  IsDir : Bool
  deriving DecidableEq

/-- Longest file name component, in bytes (`NAME_MAX`). -/
def NAME_MAX : Nat := 255

/-- Size of the path buffer of a system call, terminator included (`PATH_MAX`). -/
def PATH_MAX : Nat := 4096

/-- The length of a Go string in bytes (UTF-8). -/
def byteLen (s : GoString) : Nat := (s.map Char.utf8Size).sum

/-- The walk down to the directory of `p`: the error at the first proper
ancestor, from the top, whose name is too long, that does not exist or that is
not a directory.  Every step moves to a strictly shorter path, so a `fuel` of
the path length is never exhausted. -/
def ancestorError (fs : FS) : Nat → GoString → Option OsError
  | 0, _ => none
  | fuel + 1, p =>
    let d := parentDir p
    if d = p ∨ d = [] then none
    else
      match ancestorError fs fuel d with
      | some e => some e
      | none =>
        if byteLen (lastElement d) > NAME_MAX then some OsError.ENAMETOOLONG
        else
          match fsLookup fs d with
          | some Node.dir => none
          | some (Node.file _) => some OsError.ENOTDIR
          | none => some OsError.ENOENT

/-- The error, if any, with which the kernel refuses to look a path up at
all, before the final component is consulted. -/
def pathError (fs : FS) (p : GoString) : Option OsError :=
  if p = [] then some OsError.ENOENT
  else if Char.ofNat 0 ∈ p then some OsError.EINVAL
  else if byteLen p ≥ PATH_MAX then some OsError.ENAMETOOLONG
  else
    match ancestorError fs p.length p with
    | some e => some e
    | none => if byteLen (lastElement p) > NAME_MAX then some OsError.ENAMETOOLONG else none

/-- Go `os.IsNotExist`. -/
def IsNotExist (err : OsError) : Bool := err == OsError.ENOENT

/-- Go `ioutil.ReadFile`. -/
def ReadFile (fs : FS) (name : GoString) : Except OsError GoString :=
  match pathError fs name with
  | some e => Except.error e
  | none =>
    match fsLookup fs name with
    | some (Node.file content) => Except.ok content
    | some Node.dir => Except.error OsError.EISDIR
    | none => Except.error OsError.ENOENT

/-- Go `ioutil.WriteFile` (open with `O_WRONLY|O_CREATE|O_TRUNC`, write, close):
replaces the content of an existing regular file, creates the file when its
directory exists. -/
def WriteFile (fs : FS) (name : GoString) (data : GoString) : Except OsError FS :=
  match pathError fs name with
  | some e => Except.error e
  | none =>
    match fsLookup fs name with
    | some (Node.file _) => Except.ok (fsSet fs name (Node.file data))
    | some Node.dir => Except.error OsError.EISDIR
    | none =>
      match fsLookup fs (parentDir name) with
      | some Node.dir => Except.ok (fsSet fs name (Node.file data))
      | some (Node.file _) => Except.error OsError.ENOTDIR
      | none => Except.error OsError.ENOENT

/-- Go `os.Remove`: unlinks a file, removes an empty directory. -/
def Remove (fs : FS) (name : GoString) : Except OsError FS :=
  match pathError fs name with
  | some e => Except.error e
  | none =>
    match fsLookup fs name with
    | some (Node.file _) => Except.ok (fsRemove fs name)
    | some Node.dir =>
      if fs.any (fun e => (childName name e.1).isSome) then Except.error OsError.ENOTEMPTY
      else Except.ok (fsRemove fs name)
    | none => Except.error OsError.ENOENT

/-- Go `os.Stat`. -/
def Stat (fs : FS) (name : GoString) : Except OsError FileInfo :=
  match pathError fs name with
  | some e => Except.error e
  | none =>
    match fsLookup fs name with
    | some (Node.file _) => Except.ok { Name := lastElement name, IsDir := false }
    | some Node.dir => Except.ok { Name := lastElement name, IsDir := true }
    | none => Except.error OsError.ENOENT

/-- Insertion into a list of entries sorted by file name. -/
def insertByName (f : FileInfo) : List FileInfo → List FileInfo
  | [] => [f]
  | g :: rest => if g.Name < f.Name then g :: insertByName f rest else f :: g :: rest

/-- Go `ioutil.ReadDir`: the direct entries of a directory, sorted by file
name.  The handler passes `filesDir` as configured; the kernel refuses the
empty name and resolves any other against the working directory. -/
def ReadDir (wd : Option GoString) (fs : FS) (dirname : GoString) :
    Except OsError (List FileInfo) :=
  if dirname = [] then Except.error OsError.ENOENT
  else
    let dir := (Abs wd dirname).1
    match pathError fs dir with
    | some e => Except.error e
    | none =>
      match fsLookup fs dir with
      | some Node.dir =>
        Except.ok ((fs.filterMap (fun e =>
          (childName dir e.1).map (fun nm =>
            ({ Name := nm, IsDir := decide (e.2 = Node.dir) } : FileInfo)))).foldr
              insertByName [])
      | some (Node.file _) => Except.error OsError.ENOTDIR
      | none => Except.error OsError.ENOENT

/-! ## The handlers -/

/-- Source `FileResponse`. -/
structure FileResponse where
  Name : GoString
  FullName : GoString
  DisplayName : GoString
  deriving DecidableEq

/-- The JSON bodies the handlers send. -/
inductive Payload
  | error (msg : String)
  | files (response : List FileResponse)
  | content (content : GoString)
  | written (message : String) (filename : GoString)
  | deleted (message : String)
  deriving DecidableEq

/-- What `c.JSON(status, body)` sends. -/
structure Response where
  status : Nat
  payload : Payload
  deriving DecidableEq

def StatusOK : Nat := 200
def StatusBadRequest : Nat := 400
def StatusNotFound : Nat := 404
def StatusConflict : Nat := 409
def StatusInternalServerError : Nat := 500

/-- A decoded `map[string]string` request body. -/
abbrev GoMap := List (GoString × GoString)

/-- Go map index `m[key]` in its two-result form (`none`: key absent). -/
def mapIndex : GoMap → GoString → Option GoString
  | [], _ => none
  | (k, v) :: rest, key => if k = key then some v else mapIndex rest key

def contentKey : GoString := "content".toList
def filenameKey : GoString := "filename".toList

/-- The loop of `ListFiles` (files.go, lines 57-67) over the entries read. -/
def listResponse (files : List FileInfo) : List FileResponse :=
  files.foldl (fun response f =>
    if !f.IsDir && HasSuffix f.Name dotTxt then
      let name := TrimSuffix f.Name dotTxt
      response ++ [{ Name := name, FullName := f.Name, DisplayName := name }]
    else response) []

/-- Source `ListFiles` (files.go, lines 50-69). -/
def ListFiles (wd : Option GoString) (filesDir : GoString) (fs : FS) : Response × FS :=
  match ReadDir wd fs filesDir with
  | Except.error _ => (⟨StatusInternalServerError, Payload.error "Error reading files"⟩, fs)
  | Except.ok files => (⟨StatusOK, Payload.files (listResponse files)⟩, fs)

/-- Source `GetFile` (files.go, lines 82-100). -/
def GetFile (wd : Option GoString) (filesDir : GoString) (fs : FS) (filename : GoString) :
    Response × FS :=
  match getSafeFilePath wd filesDir filename with
  | Except.error _ => (⟨StatusBadRequest, Payload.error "Invalid file path"⟩, fs)
  | Except.ok (fullPath, _) =>
    match ReadFile fs fullPath with
    | Except.error err =>
      if IsNotExist err then (⟨StatusNotFound, Payload.error "File not found"⟩, fs)
      else (⟨StatusInternalServerError, Payload.error "Error reading file"⟩, fs)
    | Except.ok content => (⟨StatusOK, Payload.content content⟩, fs)

/-- Source `SaveFile` (files.go, lines 114-135); `body` is `none` when
`BindJSON` fails. -/
def SaveFile (wd : Option GoString) (filesDir : GoString) (fs : FS) (filename : GoString)
    (body : Option GoMap) : Response × FS :=
  match body with
  | none => (⟨StatusBadRequest, Payload.error "Invalid JSON"⟩, fs)
  | some body =>
    match getSafeFilePath wd filesDir filename with
    | Except.error _ => (⟨StatusBadRequest, Payload.error "Invalid file path"⟩, fs)
    | Except.ok (fullPath, safeFilename) =>
      let content := (mapIndex body contentKey).getD []
      match WriteFile fs fullPath content with
      | Except.error _ => (⟨StatusInternalServerError, Payload.error "Error saving file"⟩, fs)
      | Except.ok fs1 =>
        (⟨StatusOK, Payload.written "File saved successfully"
          (TrimSuffix safeFilename dotTxt)⟩, fs1)

/-- Source `DeleteFile` (files.go, lines 147-164). -/
def DeleteFile (wd : Option GoString) (filesDir : GoString) (fs : FS) (filename : GoString) :
    Response × FS :=
  match getSafeFilePath wd filesDir filename with
  | Except.error _ => (⟨StatusBadRequest, Payload.error "Invalid file path"⟩, fs)
  | Except.ok (fullPath, _) =>
    match Remove fs fullPath with
    | Except.error err =>
      if IsNotExist err then (⟨StatusNotFound, Payload.error "File not found"⟩, fs)
      else (⟨StatusInternalServerError, Payload.error "Error deleting file"⟩, fs)
    | Except.ok fs1 => (⟨StatusOK, Payload.deleted "File deleted successfully"⟩, fs1)

/-- Source `CreateFile` (files.go, lines 178-211); `body` is `none` when the
JSON decoder fails. -/
def CreateFile (wd : Option GoString) (filesDir : GoString) (fs : FS) (body : Option GoMap) :
    Response × FS :=
  match body with
  | none => (⟨StatusBadRequest, Payload.error "Invalid JSON"⟩, fs)
  | some body =>
    match mapIndex body filenameKey with
    | none => (⟨StatusBadRequest, Payload.error "Filename is required"⟩, fs)
    | some filename =>
      if filename = [] then (⟨StatusBadRequest, Payload.error "Filename is required"⟩, fs)
      else
        let content := (mapIndex body contentKey).getD []
        match getSafeFilePath wd filesDir filename with
        | Except.error _ => (⟨StatusBadRequest, Payload.error "Invalid file path"⟩, fs)
        | Except.ok (fullPath, safeFilename) =>
          -- Check existence
          match Stat fs fullPath with
          | Except.ok _ => (⟨StatusConflict, Payload.error "File already exists"⟩, fs)
          | Except.error _ =>
            match WriteFile fs fullPath content with
            | Except.error _ =>
              (⟨StatusInternalServerError, Payload.error "Error creating file"⟩, fs)
            | Except.ok fs1 =>
              (⟨StatusOK, Payload.written "File created successfully"
                (TrimSuffix safeFilename dotTxt)⟩, fs1)

/-- The entries `ListFiles` keeps, as the spec words it: the non-directory
entries whose name ends in `.txt`, each with its display name (suffix
stripped) as `name` and `displayName` and its on-disk name as `fullName`. -/
def specListing (files : List FileInfo) : List FileResponse :=
  (files.filter (fun f => f.IsDir = false ∧ dotTxt <:+ f.Name)).map (fun f =>
    { Name := f.Name.take (f.Name.length - 4), FullName := f.Name,
      DisplayName := f.Name.take (f.Name.length - 4) })

/-! ## Path segments and the segment-level meaning of `Clean` -/

/-- The `/`-separated segments of a path (always at least one segment). -/
def splitSlash : GoString → List GoString
  | [] => [[]]
  | c :: cs =>
    if c = '/' then [] :: splitSlash cs
    else
      match splitSlash cs with
      | [] => [[c]]
      | s :: ss => (c :: s) :: ss

/-- One segment applied to the abstract state of `Clean`: `st.1` counts the
leading `..` elements kept by an unrooted path, `st.2` is the stack of real
elements (last pushed first). -/
def segStep (rooted : Bool) (st : Nat × List GoString) (seg : GoString) : Nat × List GoString :=
  if seg = [] ∨ seg = ['.'] then st
  else if seg = ['.', '.'] then
    match st.2 with
    | _ :: below => (st.1, below)
    | [] => if rooted then st else (st.1 + 1, [])
  else (st.1, seg :: st.2)

/-- The part of the output buffer below `dotdot`, in reverse: the leading
slash of a rooted path, or the kept `..` elements of an unrooted one. -/
def baseBuf (rooted : Bool) : Nat → GoString
  | 0 => if rooted then ['/'] else []
  | k + 1 => '.' :: '.' :: (if (baseBuf rooted k).length > 0 then '/' :: baseBuf rooted k
      else baseBuf rooted k)

/-- The separator that `Clean` writes before a real element. -/
def sepIf (rooted : Bool) (out : GoString) : GoString :=
  if (rooted && out.length != 1) || (!rooted && out.length != 0) then '/' :: out else out

/-- The reversed output buffer that holds the stack `names` above `base`. -/
def bufOf (rooted : Bool) (base : GoString) : List GoString → GoString
  | [] => base
  | nm :: below => nm.reverse ++ sepIf rooted (bufOf rooted base below)

/-- The reversed output buffer of an abstract state. -/
def stateBuf (rooted : Bool) (st : Nat × List GoString) : GoString :=
  bufOf rooted (baseBuf rooted st.1) st.2

/-- The path an abstract state stands for. -/
def render (rooted : Bool) (st : Nat × List GoString) : GoString :=
  if (stateBuf rooted st).length = 0 then ['.'] else (stateBuf rooted st).reverse

/-- A real path element: non-empty, without separator, neither `.` nor `..`. -/
def IsName (e : GoString) : Prop :=
  e ≠ [] ∧ '/' ∉ e ∧ e ≠ ['.'] ∧ e ≠ ['.', '.']

/-- The segments an unrooted abstract state renders to. -/
def replay (st : Nat × List GoString) : List GoString :=
  List.replicate st.1 ['.', '.'] ++ st.2.reverse

/-- Whether a path starts with a separator (`rooted` in `Clean`). -/
def rootedOf (p : GoString) : Bool :=
  match p with
  | [] => false
  | c :: _ => IsPathSeparator c

/-- Lines 28-31 of `getSafeFilePath` on their own: the canonical name. -/
def safeNameOf (filename : GoString) : GoString :=
  let safeName := Base filename
  if !HasSuffix safeName dotTxt then safeName ++ dotTxt else safeName

/-- The final path segment of an input, in the words of the spec: the last
non-empty `/`-separated segment (the text after the last separator, trailing
separators ignored). -/
def specFinalSegment (s : GoString) : GoString :=
  ((splitSlash s).filter (fun seg => seg ≠ [])).getLast?.getD []

/-- The canonical name in the words of the spec: the final segment, `.txt`
appended when missing. -/
def specCanonicalName (s : GoString) : GoString :=
  if dotTxt <:+ specFinalSegment s then specFinalSegment s else specFinalSegment s ++ dotTxt

/-! ## A concrete deployment, for the examples -/

/-- The root directory `main` configures (main.go, line 31): `filepath.Join(".", "files")`. -/
def mainFilesDir : GoString := Join [".".toList, "files".toList]

/-- A working directory for the examples. -/
def exampleWd : Option GoString := some "/srv".toList

/-- The filesystem after `main` has created an empty root directory under `/srv`. -/
def emptyRootFS : FS :=
  [("/".toList, Node.dir), ("/srv".toList, Node.dir), ("/srv/files".toList, Node.dir)]

/-- A request body with the keys `filename` and `content`. -/
def requestBody (filename content : GoString) : GoMap :=
  [(filenameKey, filename), (contentKey, content)]

/-! ## Lemmas -/

/-! ### Go strings -/

theorem hasSuffix_iff (s t : GoString) : HasSuffix s t = true ↔ t <:+ s := by
  unfold HasSuffix
  simp only [Bool.and_eq_true, decide_eq_true_eq, beq_iff_eq]
  constructor
  · rintro ⟨_, h⟩
    have h2 := List.take_append_drop (s.length - t.length) s
    rw [h] at h2
    exact ⟨_, h2⟩
  · rintro ⟨u, rfl⟩
    simp

theorem hasPrefix_iff (s t : GoString) : HasPrefix s t = true ↔ t <+: s := by
  unfold HasPrefix
  simp only [Bool.and_eq_true, decide_eq_true_eq, beq_iff_eq]
  constructor
  · rintro ⟨_, h⟩
    have h2 := List.take_append_drop t.length s
    rw [h] at h2
    exact ⟨_, h2⟩
  · rintro ⟨u, rfl⟩
    simp

theorem trimSuffix_append (s t : GoString) : TrimSuffix (s ++ t) t = s := by
  unfold TrimSuffix
  rw [if_pos ((hasSuffix_iff _ _).2 ⟨s, rfl⟩)]
  simp

/-! ### `splitSlash` -/

theorem splitSlash_ne_nil (p : GoString) : splitSlash p ≠ [] := by
  cases p with
  | nil => simp [splitSlash]
  | cons c cs =>
    unfold splitSlash
    split
    · simp
    · split <;> simp

theorem splitSlash_noSlash (e : GoString) (h : '/' ∉ e) : splitSlash e = [e] := by
  induction e with
  | nil => rfl
  | cons c cs ih =>
    have hc : c ≠ '/' := fun hc => h (by simp [hc])
    have hcs : '/' ∉ cs := fun hcs => h (by simp [hcs])
    simp [splitSlash, hc, ih hcs]

theorem splitSlash_append (a b : GoString) :
    splitSlash (a ++ '/' :: b) = splitSlash a ++ splitSlash b := by
  induction a with
  | nil => simp [splitSlash]
  | cons c cs ih =>
    by_cases hc : c = '/'
    · simp [splitSlash, hc, ih]
    · have hne := splitSlash_ne_nil cs
      cases hs : splitSlash cs with
      | nil => exact absurd hs hne
      | cons s ss => simp [splitSlash, hc, ih, hs]

theorem splitSlash_slash (b : GoString) : splitSlash ('/' :: b) = [] :: splitSlash b := by
  simp [splitSlash]

theorem splitSlash_elem (e b : GoString) (h : '/' ∉ e) :
    splitSlash (e ++ '/' :: b) = e :: splitSlash b := by
  rw [splitSlash_append, splitSlash_noSlash e h]; rfl

/-! ### The output buffer -/

theorem baseBuf_rooted_length : (baseBuf true 0).length = 1 := rfl

theorem bufOf_length_ge (rooted : Bool) (base : GoString) (names : List GoString) :
    base.length ≤ (bufOf rooted base names).length := by
  induction names with
  | nil => simp [bufOf]
  | cons nm below ih =>
    simp only [bufOf, sepIf, List.length_append, List.length_reverse]
    split <;> (try simp only [List.length_cons]) <;> omega

theorem bufOf_length_gt (rooted : Bool) (base : GoString) (nm : GoString) (below : List GoString)
    (hnm : nm ≠ []) : base.length < (bufOf rooted base (nm :: below)).length := by
  have h1 := bufOf_length_ge rooted base below
  have h2 : 0 < nm.length := List.length_pos.2 hnm
  simp only [bufOf, sepIf, List.length_append, List.length_reverse]
  split <;> (try simp only [List.length_cons]) <;> omega

/-- Backtracking over the reversed bytes of one element stops at `rest` when
the buffer below is exactly `dotdot` long. -/
theorem backtrack_flush (dotdot : Nat) (e rest : GoString) (he : e ≠ [])
    (hs : ∀ c ∈ e, c ≠ '/') (hlen : rest.length = dotdot) :
    backtrack dotdot (e ++ rest) = rest := by
  induction e with
  | nil => exact absurd rfl he
  | cons c cs ih =>
    by_cases hcs : cs = []
    · subst hcs
      simp [backtrack, hlen]
    · have hc : c ≠ '/' := hs c (by simp)
      have hpos : 0 < cs.length := List.length_pos.2 hcs
      have : (cs ++ rest).length > dotdot := by simp; omega
      simp only [List.cons_append, backtrack, IsPathSeparator]
      rw [if_pos ⟨this, by simp [hc]⟩]
      exact ih hcs (fun c hc => hs c (by simp [hc]))

/-- Backtracking over the reversed bytes of one element and the separator
written before it. -/
theorem backtrack_sep (dotdot : Nat) (e rest : GoString)
    (hs : ∀ c ∈ e, c ≠ '/') (hlen : dotdot ≤ rest.length) (he : e ≠ []) :
    backtrack dotdot (e ++ '/' :: rest) = rest := by
  induction e with
  | nil => exact absurd rfl he
  | cons c cs ih =>
    have hc : c ≠ '/' := hs c (by simp)
    have : (cs ++ '/' :: rest).length > dotdot := by simp; omega
    simp only [List.cons_append, backtrack, IsPathSeparator]
    rw [if_pos ⟨this, by simp [hc]⟩]
    by_cases hcs : cs = []
    · subst hcs
      simp [backtrack, IsPathSeparator]
    · exact ih (fun c hc => hs c (by simp [hc])) hcs

theorem backtrack_bufOf (rooted : Bool) (k : Nat) (nm : GoString) (below : List GoString)
    (hk : rooted = true → k = 0) (hnm : nm ≠ []) (hs : '/' ∉ nm) :
    backtrack (baseBuf rooted k).length (bufOf rooted (baseBuf rooted k) (nm :: below)) =
      bufOf rooted (baseBuf rooted k) below := by
  have hge := bufOf_length_ge rooted (baseBuf rooted k) below
  have hs2 : ∀ c ∈ nm.reverse, c ≠ '/' := by
    intro c hc h
    exact hs (by simpa [h] using hc)
  have hne : nm.reverse ≠ [] := by simpa using hnm
  simp only [bufOf, sepIf]
  split
  · exact backtrack_sep _ _ _ hs2 hge hne
  · rename_i hcond
    apply backtrack_flush _ _ _ hne hs2
    cases rooted with
    | true =>
      have := hk rfl
      subst this
      simp at hcond
      simpa [baseBuf] using hcond
    | false =>
      simp at hcond
      have : (baseBuf false k).length = 0 := by
        have := bufOf_length_ge false (baseBuf false k) below
        simp [hcond] at this
        simpa using this
      simp [hcond, this]

theorem copyElement_eq (p out : GoString) :
    copyElement p out =
      (p.dropWhile (fun c => !IsPathSeparator c),
        (p.takeWhile (fun c => !IsPathSeparator c)).reverse ++ out) := by
  induction p generalizing out with
  | nil => simp [copyElement]
  | cons c cs ih =>
    by_cases hc : IsPathSeparator c = true
    · simp [copyElement, hc]
    · simp [copyElement, hc, ih]

/-! ### The main loop of `Clean` computes the segment fold -/

theorem segStep_nil (rooted : Bool) (st : Nat × List GoString) : segStep rooted st [] = st := by
  simp [segStep]

theorem segStep_dot (rooted : Bool) (st : Nat × List GoString) : segStep rooted st ['.'] = st := by
  simp [segStep]

theorem segStep_name (rooted : Bool) (st : Nat × List GoString) (e : GoString) (he : IsName e) :
    segStep rooted st e = (st.1, e :: st.2) := by
  obtain ⟨h1, _, h3, h4⟩ := he
  simp [segStep, h1, h3, h4]

theorem atBoundary_split (rest : GoString)
    (h : rest = [] ∨ rest.head?.map IsPathSeparator = some true) :
    rest.takeWhile (fun c => !IsPathSeparator c) = [] ∧
      rest.dropWhile (fun c => !IsPathSeparator c) = rest := by
  cases rest with
  | nil => simp
  | cons d r =>
    have hd : IsPathSeparator d = true := by simpa using h
    simp [hd]

theorem atBoundary_of_takeWhile (rest : GoString)
    (h : rest.takeWhile (fun c => !IsPathSeparator c) = []) :
    rest = [] ∨ rest.head?.map IsPathSeparator = some true := by
  cases rest with
  | nil => simp
  | cons d r =>
    by_cases hd : IsPathSeparator d = true
    · simp [hd]
    · simp [hd] at h

theorem dropWhile_boundary (p : GoString) :
    p.dropWhile (fun c => !IsPathSeparator c) = [] ∨
      ∃ q, p.dropWhile (fun c => !IsPathSeparator c) = '/' :: q := by
  induction p with
  | nil => simp
  | cons c cs ih =>
    by_cases hc : IsPathSeparator c = true
    · right
      have : c = '/' := by simpa [IsPathSeparator] using hc
      subst this
      exact ⟨cs, by simp [IsPathSeparator]⟩
    · simpa [hc] using ih

theorem takeWhile_noSlash (p : GoString) :
    '/' ∉ p.takeWhile (fun c => !IsPathSeparator c) := by
  intro h
  have := List.mem_takeWhile_imp h
  simp [IsPathSeparator] at this

theorem foldl_segStep_split (rooted : Bool) (st : Nat × List GoString) (p : GoString) :
    List.foldl (segStep rooted) st (splitSlash p) =
      List.foldl (segStep rooted)
        (segStep rooted st (p.takeWhile (fun c => !IsPathSeparator c)))
        (splitSlash (p.dropWhile (fun c => !IsPathSeparator c))) := by
  have hp := List.takeWhile_append_dropWhile (fun c => !IsPathSeparator c) p
  have hno := takeWhile_noSlash p
  rcases dropWhile_boundary p with hq | ⟨q, hq⟩
  · rw [hq] at hp ⊢
    simp only [List.append_nil] at hp
    rw [hp, splitSlash_noSlash p (hp ▸ hno)]
    simp [splitSlash, segStep_nil]
  · rw [hq] at hp ⊢
    conv_lhs => rw [← hp]
    rw [splitSlash_elem _ _ hno, splitSlash_slash]
    simp [segStep_nil]

theorem cleanLoop_dotdot (rooted : Bool) (fuel : Nat) (c : Char) (rest out : GoString)
    (dotdot : Nat) (hc : ¬ IsPathSeparator c = true)
    (h1 : ¬ (c = '.' ∧ (rest = [] ∨ rest.head?.map IsPathSeparator = some true)))
    (h2 : c = '.' ∧ rest.head? = some '.' ∧
      (rest.tail = [] ∨ rest.tail.head?.map IsPathSeparator = some true)) :
    cleanLoop rooted (fuel + 1) (c :: rest) out dotdot =
      (if out.length > dotdot then
        cleanLoop rooted fuel rest.tail (backtrack dotdot out) dotdot
      else if (!rooted) = true then
        cleanLoop rooted fuel rest.tail
          ('.' :: '.' :: (if out.length > 0 then '/' :: out else out))
          ('.' :: '.' :: (if out.length > 0 then '/' :: out else out)).length
      else cleanLoop rooted fuel rest.tail out dotdot) := by
  simp only [cleanLoop]
  rw [if_neg hc, if_neg h1, if_pos h2]

theorem cleanLoop_real (rooted : Bool) (fuel : Nat) (c : Char) (rest out : GoString)
    (dotdot : Nat) (hc : ¬ IsPathSeparator c = true)
    (h1 : ¬ (c = '.' ∧ (rest = [] ∨ rest.head?.map IsPathSeparator = some true)))
    (h2 : ¬ (c = '.' ∧ rest.head? = some '.' ∧
      (rest.tail = [] ∨ rest.tail.head?.map IsPathSeparator = some true))) :
    cleanLoop rooted (fuel + 1) (c :: rest) out dotdot =
      cleanLoop rooted fuel (rest.dropWhile (fun c => !IsPathSeparator c))
        ((c :: rest.takeWhile (fun c => !IsPathSeparator c)).reverse ++ sepIf rooted out)
        dotdot := by
  have htw : (c :: rest).takeWhile (fun c => !IsPathSeparator c) =
      c :: rest.takeWhile (fun c => !IsPathSeparator c) := by simp [hc]
  have hdw : (c :: rest).dropWhile (fun c => !IsPathSeparator c) =
      rest.dropWhile (fun c => !IsPathSeparator c) := by simp [hc]
  simp only [cleanLoop]
  rw [if_neg hc, if_neg h1, if_neg h2]
  simp only [copyElement_eq, htw, hdw, sepIf]

theorem cleanLoop_eq (rooted : Bool) :
    ∀ (fuel : Nat) (p : GoString) (st : Nat × List GoString),
      p.length ≤ fuel → (rooted = true → st.1 = 0) → (∀ nm ∈ st.2, IsName nm) →
      cleanLoop rooted fuel p (stateBuf rooted st) (baseBuf rooted st.1).length =
        stateBuf rooted (List.foldl (segStep rooted) st (splitSlash p)) := by
  intro fuel
  induction fuel with
  | zero =>
    intro p st hp _ _
    have : p = [] := List.length_eq_zero.1 (Nat.le_zero.1 hp)
    subst this
    simp [cleanLoop, splitSlash, segStep_nil]
  | succ fuel ih =>
    intro p st hp hk hnames
    cases p with
    | nil => simp [cleanLoop, splitSlash, segStep_nil]
    | cons c rest =>
      have hrest : rest.length ≤ fuel := by simpa using hp
      by_cases hc : IsPathSeparator c = true
      · have hc2 : c = '/' := by simpa [IsPathSeparator] using hc
        subst hc2
        rw [splitSlash_slash]
        simp only [List.foldl_cons, segStep_nil]
        rw [← ih rest st hrest hk hnames]
        simp [cleanLoop, IsPathSeparator]
      · rw [foldl_segStep_split]
        have htw : (c :: rest).takeWhile (fun c => !IsPathSeparator c) =
            c :: rest.takeWhile (fun c => !IsPathSeparator c) := by simp [hc]
        have hdw : (c :: rest).dropWhile (fun c => !IsPathSeparator c) =
            rest.dropWhile (fun c => !IsPathSeparator c) := by simp [hc]
        rw [htw, hdw]
        by_cases h1 : c = '.' ∧ (rest = [] ∨ rest.head?.map IsPathSeparator = some true)
        · obtain ⟨ht, hd⟩ := atBoundary_split rest h1.2
          rw [ht, hd, h1.1, segStep_dot, ← ih rest st hrest hk hnames]
          rw [← h1.1]
          simp only [cleanLoop]
          rw [if_neg hc, if_pos h1]
        · by_cases h2 : c = '.' ∧ rest.head? = some '.' ∧
              (rest.tail = [] ∨ rest.tail.head?.map IsPathSeparator = some true)
          · rw [cleanLoop_dotdot rooted fuel c rest _ _ hc h1 h2]
            obtain ⟨hcd, hh, hb⟩ := h2
            cases rest with
            | nil => simp at hh
            | cons d rest2 =>
              have hd : d = '.' := by simpa using hh
              subst hd
              subst hcd
              simp only [List.tail_cons] at hb ⊢
              obtain ⟨ht, hdr⟩ := atBoundary_split rest2 hb
              have hsep : IsPathSeparator '.' = false := by decide
              have ht2 : ('.' :: rest2).takeWhile (fun c => !IsPathSeparator c) = ['.'] := by
                simp [hsep, ht]
              have hd2 : ('.' :: rest2).dropWhile (fun c => !IsPathSeparator c) = rest2 := by
                simp [hsep, hdr]
              rw [ht2, hd2]
              have hrest2 : rest2.length ≤ fuel := by
                simp at hrest; omega
              obtain ⟨k, names⟩ := st
              cases names with
              | nil =>
                have hlen : ¬ (stateBuf rooted (k, [])).length > (baseBuf rooted k).length := by
                  simp [stateBuf, bufOf]
                rw [if_neg hlen]
                cases rooted with
                | true =>
                  simp only [Bool.not_true, Bool.false_eq_true, if_false]
                  rw [ih rest2 (k, []) hrest2 hk hnames]
                  simp [segStep]
                | false =>
                  simp only [Bool.not_false, if_true]
                  have hs : segStep false (k, []) ['.', '.'] = (k + 1, []) := by simp [segStep]
                  rw [hs, ← ih rest2 (k + 1, []) hrest2 (by simp) (by simp)]
                  simp [stateBuf, bufOf, baseBuf]
              | cons nm below =>
                have hnm : IsName nm := hnames nm (by simp)
                have hlen : (stateBuf rooted (k, nm :: below)).length >
                    (baseBuf rooted k).length :=
                  bufOf_length_gt rooted _ nm below hnm.1
                rw [if_pos hlen]
                have hs : segStep rooted (k, nm :: below) ['.', '.'] = (k, below) := by
                  simp [segStep]
                rw [hs, ← ih rest2 (k, below) hrest2 hk
                  (fun x hx => hnames x (by simp [hx]))]
                simp only [stateBuf]
                rw [backtrack_bufOf rooted k nm below hk hnm.1 hnm.2.1]
          · -- real path element
            have hname : IsName (c :: rest.takeWhile (fun c => !IsPathSeparator c)) := by
              refine ⟨by simp, ?_, ?_, ?_⟩
              · have := takeWhile_noSlash (c :: rest)
                rwa [htw] at this
              · intro he
                have hcd : c = '.' := by simpa using (List.cons.inj he).1
                have ht : rest.takeWhile (fun c => !IsPathSeparator c) = [] :=
                  (List.cons.inj he).2
                exact h1 ⟨hcd, atBoundary_of_takeWhile rest ht⟩
              · intro he
                have hcd : c = '.' := by simpa using (List.cons.inj he).1
                have ht : rest.takeWhile (fun c => !IsPathSeparator c) = ['.'] :=
                  (List.cons.inj he).2
                cases rest with
                | nil => simp at ht
                | cons d rest2 =>
                  by_cases hd : IsPathSeparator d = true
                  · simp [hd] at ht
                  · rw [List.takeWhile_cons_of_pos (by simp [hd])] at ht
                    have hd2 : d = '.' := (List.cons.inj ht).1
                    exact h2 ⟨hcd, by simp [hd2],
                      atBoundary_of_takeWhile rest2 (List.cons.inj ht).2⟩
            rw [segStep_name rooted st _ hname]
            have hq : (rest.dropWhile (fun c => !IsPathSeparator c)).length ≤ fuel :=
              Nat.le_trans (List.Sublist.length_le (List.dropWhile_sublist _)) hrest
            rw [← ih _ (st.1, _ :: st.2) hq hk (by
              intro x hx
              rcases List.mem_cons.1 hx with rfl | hx
              · exact hname
              · exact hnames x hx)]
            rw [cleanLoop_real rooted fuel c rest _ _ hc h1 h2]
            rfl

/-! ### `Clean` as a fold over segments -/

theorem clean_eq (p : GoString) :
    Clean p = render (rootedOf p) (List.foldl (segStep (rootedOf p)) (0, []) (splitSlash p)) := by
  cases p with
  | nil => simp [Clean, rootedOf, splitSlash, segStep_nil, render, stateBuf, bufOf, baseBuf]
  | cons c rest =>
    by_cases hc : IsPathSeparator c = true
    · have hc2 : c = '/' := by simpa [IsPathSeparator] using hc
      subst hc2
      have h := cleanLoop_eq true (('/' :: rest).length) rest (0, [])
        (by simp) (fun _ => rfl) (by simp)
      simp only [stateBuf, bufOf, baseBuf] at h
      simp only [Clean, rootedOf, hc, if_true, splitSlash_slash, List.foldl_cons, segStep_nil,
        render, stateBuf]
      erw [h]
    · have hcf : IsPathSeparator c = false := by simpa using hc
      have h := cleanLoop_eq false ((c :: rest).length) (c :: rest) (0, [])
        (by simp) (by simp) (by simp)
      simp only [stateBuf, bufOf, baseBuf] at h
      simp only [Clean, rootedOf, hcf, render, stateBuf]
      erw [h]
      rfl

theorem splitSlash_mem_noSlash (p s : GoString) (h : s ∈ splitSlash p) : '/' ∉ s := by
  induction p generalizing s with
  | nil =>
    simp [splitSlash] at h
    subst h
    simp
  | cons c cs ih =>
    by_cases hc : c = '/'
    · simp [splitSlash, hc] at h
      rcases h with rfl | h
      · simp
      · exact ih s h
    · cases hs : splitSlash cs with
      | nil => exact absurd hs (splitSlash_ne_nil cs)
      | cons t ts =>
        simp [splitSlash, hc, hs] at h
        rcases h with rfl | h
        · have := ih t (by simp [hs])
          intro hm
          rcases List.mem_cons.1 hm with h1 | h1
          · exact hc h1.symm
          · exact this h1
        · exact ih s (by simp [hs, h])

theorem segStep_ok (rooted : Bool) (st : Nat × List GoString) (seg : GoString)
    (hseg : '/' ∉ seg) (hk : rooted = true → st.1 = 0) (hn : ∀ nm ∈ st.2, IsName nm) :
    (rooted = true → (segStep rooted st seg).1 = 0) ∧
      ∀ nm ∈ (segStep rooted st seg).2, IsName nm := by
  unfold segStep
  split
  · exact ⟨hk, hn⟩
  · rename_i h1
    split
    · obtain ⟨k, names⟩ := st
      cases names with
      | nil =>
        cases rooted with
        | true => exact ⟨hk, hn⟩
        | false => simp
      | cons nm below => exact ⟨hk, fun x hx => hn x (by simp [hx])⟩
    · rename_i h2
      refine ⟨hk, ?_⟩
      intro x hx
      rcases List.mem_cons.1 hx with rfl | hx
      · exact ⟨fun h => h1 (Or.inl h), hseg, fun h => h1 (Or.inr h), h2⟩
      · exact hn x hx

theorem foldl_segStep_ok (rooted : Bool) (segs : List GoString) :
    ∀ (st : Nat × List GoString), (∀ s ∈ segs, '/' ∉ s) → (rooted = true → st.1 = 0) →
      (∀ nm ∈ st.2, IsName nm) →
      (rooted = true → (List.foldl (segStep rooted) st segs).1 = 0) ∧
        ∀ nm ∈ (List.foldl (segStep rooted) st segs).2, IsName nm := by
  induction segs with
  | nil => intro st _ hk hn; exact ⟨hk, hn⟩
  | cons s ss ih =>
    intro st hs hk hn
    obtain ⟨h1, h2⟩ := segStep_ok rooted st s (hs s (by simp)) hk hn
    exact ih _ (fun x hx => hs x (by simp [hx])) h1 h2

theorem foldl_segStep_names (rooted : Bool) (names : List GoString) (hn : ∀ nm ∈ names, IsName nm) :
    ∀ (st : Nat × List GoString),
      List.foldl (segStep rooted) st names.reverse = (st.1, names ++ st.2) := by
  induction names with
  | nil => intro st; simp
  | cons nm below ih =>
    intro st
    rw [List.reverse_cons, List.foldl_append, ih (fun x hx => hn x (by simp [hx]))]
    simp [segStep_name rooted _ nm (hn nm (by simp))]

/-! ### Splitting a cleaned path again -/

theorem stateBuf_rooted_ne_nil (names : List GoString) : stateBuf true (0, names) ≠ [] := by
  intro h
  have := bufOf_length_ge true (baseBuf true 0) names
  simp [stateBuf] at h
  rw [h] at this
  simp [baseBuf] at this

theorem stateBuf_rooted_length_one (names : List GoString) (hn : ∀ nm ∈ names, IsName nm) :
    (stateBuf true (0, names)).length = 1 ↔ names = [] := by
  constructor
  · intro h
    cases names with
    | nil => rfl
    | cons nm below =>
      have := bufOf_length_gt true (baseBuf true 0) nm below (hn nm (by simp)).1
      simp [stateBuf] at h
      rw [h] at this
      simp [baseBuf] at this
  · rintro rfl
    rfl

theorem splitSlash_rooted (names : List GoString) (hn : ∀ nm ∈ names, IsName nm)
    (hne : names ≠ []) :
    splitSlash (stateBuf true (0, names)).reverse = [] :: names.reverse := by
  induction names with
  | nil => exact absurd rfl hne
  | cons nm below ih =>
    have hnm := hn nm (by simp)
    have hb : ∀ x ∈ below, IsName x := fun x hx => hn x (by simp [hx])
    by_cases hbelow : below = []
    · subst hbelow
      simp [stateBuf, bufOf, baseBuf, sepIf, splitSlash_slash, splitSlash_noSlash nm hnm.2.1]
    · have hlen : (bufOf true (baseBuf true 0) below).length ≠ 1 := by
        intro h
        exact hbelow ((stateBuf_rooted_length_one below hb).1 h)
      have ih2 := ih hb hbelow
      simp only [stateBuf] at ih2
      simp only [stateBuf, bufOf, sepIf, hlen, List.reverse_append, List.reverse_reverse,
        List.reverse_cons, List.append_assoc, List.singleton_append]
      simp only [ne_eq, not_false_eq_true, bne_iff_ne, Bool.true_and, Bool.not_true,
        Bool.false_and, Bool.or_false, decide_True, if_true, hlen, List.reverse_cons,
        List.append_assoc, List.singleton_append]
      rw [splitSlash_append, ih2, splitSlash_noSlash nm hnm.2.1]
      simp

theorem clean_rooted_render (names : List GoString) (hn : ∀ nm ∈ names, IsName nm) :
    Clean (render true (0, names)) = render true (0, names) := by
  have hne := stateBuf_rooted_ne_nil names
  have hlen : (stateBuf true (0, names)).length ≠ 0 := by
    simpa [List.length_eq_zero] using hne
  by_cases hnames : names = []
  · subst hnames
    rfl
  · have hsp := splitSlash_rooted names hn hnames
    have hr : render true (0, names) = (stateBuf true (0, names)).reverse := by
      simp [render, hlen]
    have hroot : rootedOf (stateBuf true (0, names)).reverse = true := by
      cases h : (stateBuf true (0, names)).reverse with
      | nil => simp at h; exact absurd h hne
      | cons c cs =>
        rw [h] at hsp
        by_cases hc : c = '/'
        · simp [rootedOf, IsPathSeparator, hc]
        · exfalso
          cases hs : splitSlash cs with
          | nil => exact absurd hs (splitSlash_ne_nil cs)
          | cons t ts => simp [splitSlash, hc, hs] at hsp
    rw [hr, clean_eq, hroot, hsp, List.foldl_cons, segStep_nil,
      foldl_segStep_names true names hn, ← hr]
    simp

theorem splitSlash_baseBuf (k : Nat) :
    splitSlash (baseBuf false (k + 1)).reverse = List.replicate (k + 1) ['.', '.'] := by
  induction k with
  | zero => simp [baseBuf, splitSlash]
  | succ k ih =>
    have hpos : (baseBuf false (k + 1)).length > 0 := by simp [baseBuf]
    have hb : baseBuf false (k + 1 + 1) = '.' :: '.' :: '/' :: baseBuf false (k + 1) := by
      conv_lhs => rw [baseBuf]
      rw [if_pos hpos]
    rw [hb]
    have hrev : ('.' :: '.' :: '/' :: baseBuf false (k + 1)).reverse =
        (baseBuf false (k + 1)).reverse ++ '/' :: ['.', '.'] := by simp
    rw [hrev, splitSlash_append, ih, List.replicate_succ' (k + 1)]
    simp [splitSlash]

theorem splitSlash_unrooted (k : Nat) (names : List GoString) (hn : ∀ nm ∈ names, IsName nm)
    (hne : stateBuf false (k, names) ≠ []) :
    splitSlash (stateBuf false (k, names)).reverse = replay (k, names) := by
  induction names with
  | nil =>
    cases k with
    | zero => simp [stateBuf, bufOf, baseBuf] at hne
    | succ k => simpa [stateBuf, bufOf, replay] using splitSlash_baseBuf k
  | cons nm below ih =>
    have hnm := hn nm (by simp)
    have hb : ∀ x ∈ below, IsName x := fun x hx => hn x (by simp [hx])
    by_cases hB : stateBuf false (k, below) = []
    · have hk : k = 0 := by
        cases k with
        | zero => rfl
        | succ k =>
          have := bufOf_length_ge false (baseBuf false (k + 1)) below
          simp only [stateBuf] at hB
          rw [hB] at this
          simp [baseBuf] at this
      subst hk
      have hbelow : below = [] := by
        cases below with
        | nil => rfl
        | cons x xs =>
          have := bufOf_length_gt false (baseBuf false 0) x xs (hb x (by simp)).1
          simp only [stateBuf] at hB
          rw [hB] at this
          simp at this
      subst hbelow
      simp [stateBuf, bufOf, baseBuf, sepIf, replay, splitSlash_noSlash nm hnm.2.1]
    · have ih2 := ih hb hB
      simp only [stateBuf] at ih2 hB
      have hlen : (bufOf false (baseBuf false k) below).length ≠ 0 := by
        simpa [List.length_eq_zero] using hB
      simp only [stateBuf, bufOf, sepIf, List.reverse_append, List.reverse_reverse]
      simp only [ne_eq, not_false_eq_true, bne_iff_ne, Bool.false_and, Bool.not_false,
        Bool.true_and, Bool.false_or, decide_True, if_true, hlen, List.reverse_cons,
        List.append_assoc, List.singleton_append]
      rw [splitSlash_append, ih2, splitSlash_noSlash nm hnm.2.1]
      simp [replay]

/-- Replaying a cleaned unrooted path below a rooted state has the effect of
the segments it was cleaned from. -/
theorem foldl_replay (S : Nat × List GoString) (T : List GoString) :
    ∀ (st : Nat × List GoString), (∀ nm ∈ st.2, IsName nm) → (∀ s ∈ T, '/' ∉ s) →
      List.foldl (segStep true) S (replay (List.foldl (segStep false) st T)) =
        List.foldl (segStep true) S (replay st ++ T) := by
  induction T with
  | nil => intro st _ _; simp
  | cons seg T ih =>
    intro st hn hT
    have hseg : '/' ∉ seg := hT seg (by simp)
    have hok := segStep_ok false st seg hseg (by simp) hn
    rw [List.foldl_cons, ih _ hok.2 (fun s hs => hT s (by simp [hs]))]
    have hstep : List.foldl (segStep true) S (replay (segStep false st seg)) =
        List.foldl (segStep true) S (replay st ++ [seg]) := by
      obtain ⟨k, names⟩ := st
      by_cases h1 : seg = [] ∨ seg = ['.']
      · have : segStep false (k, names) seg = (k, names) := by simp [segStep, h1]
        rw [this, List.foldl_append]
        rcases h1 with rfl | rfl
        · simp [segStep_nil]
        · simp [segStep_dot]
      · by_cases h2 : seg = ['.', '.']
        · subst h2
          cases names with
          | nil =>
            have : segStep false (k, []) ['.', '.'] = (k + 1, []) := by simp [segStep]
            rw [this]
            simp [replay, List.replicate_succ']
          | cons nm below =>
            have hnm : IsName nm := hn nm (by simp)
            have : segStep false (k, nm :: below) ['.', '.'] = (k, below) := by simp [segStep]
            rw [this]
            simp only [replay, List.reverse_cons, List.foldl_append, List.foldl_cons,
              List.foldl_nil]
            rw [segStep_name true _ nm hnm]
            simp [segStep]
        · have hname : IsName seg :=
            ⟨fun h => h1 (Or.inl h), hseg, fun h => h1 (Or.inr h), h2⟩
          rw [segStep_name false _ seg hname]
          simp [replay]
    rw [List.foldl_append, hstep, List.foldl_append, List.foldl_append]
    simp

/-! ### The shape of a joined and resolved path -/

theorem render_rooted_push (names : List GoString) (e : GoString)
    (hn : ∀ nm ∈ names, IsName nm) :
    render true (0, e :: names) =
      if render true (0, names) = ['/'] then '/' :: e else render true (0, names) ++ '/' :: e := by
  have hne := stateBuf_rooted_ne_nil names
  have hlen : (stateBuf true (0, names)).length ≠ 0 := by
    simpa [List.length_eq_zero] using hne
  have hr : render true (0, names) = (stateBuf true (0, names)).reverse := by
    simp [render, hlen]
  have hr2 : render true (0, e :: names) = (stateBuf true (0, e :: names)).reverse := by
    have := stateBuf_rooted_ne_nil (e :: names)
    simp [render, this]
  rw [hr2, hr]
  by_cases hnames : names = []
  · subst hnames
    simp [stateBuf, bufOf, baseBuf, sepIf]
  · have hl1 : (stateBuf true (0, names)).length ≠ 1 := fun h =>
      hnames ((stateBuf_rooted_length_one names hn).1 h)
    have hneq : (stateBuf true (0, names)).reverse ≠ ['/'] := by
      intro h
      apply hl1
      have := congrArg List.length h
      simpa using this
    rw [if_neg hneq]
    simp only [stateBuf] at hl1 ⊢
    simp only [bufOf, sepIf, List.reverse_append, List.reverse_reverse]
    simp [hl1]

theorem isAbs_eq_rootedOf (p : GoString) : IsAbs p = rootedOf p := by
  cases p with
  | nil => rfl
  | cons c cs =>
    simp only [IsAbs, HasPrefix, rootedOf, IsPathSeparator]
    by_cases hc : c = '/' <;> simp [hc]

theorem rootedOf_append (a b : GoString) (ha : a ≠ []) : rootedOf (a ++ b) = rootedOf a := by
  cases a with
  | nil => exact absurd rfl ha
  | cons c cs => rfl

theorem rootedOf_splitSlash (p : GoString) (h : rootedOf p = true) :
    (splitSlash p).head? = some [] := by
  cases p with
  | nil => simp [rootedOf] at h
  | cons c cs =>
    have hc : c = '/' := by simpa [rootedOf, IsPathSeparator] using h
    simp [splitSlash, hc]

theorem join_two (d n : GoString) (hd : d ≠ []) : Join [d, n] = Clean (d ++ '/' :: n) := by
  simp [Join, stringsJoin, hd]

theorem render_rooted_ne_nil (names : List GoString) : render true (0, names) ≠ [] := by
  have hne := stateBuf_rooted_ne_nil names
  unfold render
  split
  · simp
  · simpa using hne

theorem rootedOf_render_rooted (names : List GoString) (hn : ∀ nm ∈ names, IsName nm) :
    rootedOf (render true (0, names)) = true := by
  induction names with
  | nil => rfl
  | cons e names ih =>
    have hb : ∀ x ∈ names, IsName x := fun x hx => hn x (by simp [hx])
    rw [render_rooted_push names e hb]
    split
    · rfl
    · rw [rootedOf_append _ _ (render_rooted_ne_nil names)]
      exact ih hb

theorem replay_ne_nil (st : Nat × List GoString) (hn : ∀ nm ∈ st.2, IsName nm) :
    ∀ x ∈ replay st, x ≠ [] := by
  intro x hx
  simp only [replay, List.mem_append, List.mem_reverse] at hx
  rcases hx with hx | hx
  · rw [(List.mem_replicate.1 hx).2]
    simp
  · exact (hn x hx).1

theorem prod_eta_zero (s : Nat × List GoString) (h : s.1 = 0) : s = (0, s.2) := by
  obtain ⟨a, b⟩ := s
  simp at h
  simp [h]

/-- The resolved candidate path is the resolved root with one more element. -/
theorem resolved_shape (wd : Option GoString) (D n e : GoString) (hD : D ≠ [])
    (hwd : ∀ w, wd = some w → rootedOf w = true)
    (hav : rootedOf D = true ∨ wd.isSome = true) (he : IsName e)
    (hpush : ∀ (rooted : Bool) (st : Nat × List GoString),
      List.foldl (segStep rooted) st (splitSlash n) = (st.1, e :: st.2)) :
    (Abs wd (Join [D, n])).1 =
      if (Abs wd D).1 = ['/'] then '/' :: e else (Abs wd D).1 ++ '/' :: e := by
  have hsegD : ∀ s ∈ splitSlash D, '/' ∉ s := fun s hs => splitSlash_mem_noSlash D s hs
  rw [join_two D n hD]
  by_cases hr : rootedOf D = true
  · -- absolute root: the working directory is not consulted
    have hokD := foldl_segStep_ok true (splitSlash D) (0, []) hsegD (fun _ => rfl) (by simp)
    have hF : Clean (D ++ '/' :: n) =
        render true (0, e :: (List.foldl (segStep true) (0, []) (splitSlash D)).2) := by
      rw [clean_eq, rootedOf_append D _ hD, hr, splitSlash_append, List.foldl_append, hpush,
        hokD.1 rfl]
    have hnames : ∀ nm ∈ e :: (List.foldl (segStep true) (0, []) (splitSlash D)).2,
        IsName nm := by
      intro x hx
      rcases List.mem_cons.1 hx with rfl | hx
      · exact he
      · exact hokD.2 x hx
    have hdir : (Abs wd D).1 =
        render true (0, (List.foldl (segStep true) (0, []) (splitSlash D)).2) := by
      simp only [Abs, isAbs_eq_rootedOf, hr, if_true]
      rw [clean_eq, hr]
      conv_lhs => rw [prod_eta_zero _ (hokD.1 rfl)]
    have hpath : (Abs wd (Clean (D ++ '/' :: n))).1 =
        render true (0, e :: (List.foldl (segStep true) (0, []) (splitSlash D)).2) := by
      rw [hF]
      simp only [Abs, isAbs_eq_rootedOf, rootedOf_render_rooted _ hnames, if_true]
      exact clean_rooted_render _ hnames
    rw [hpath, hdir]
    exact render_rooted_push _ e hokD.2
  · -- relative root: both paths are joined to the working directory
    have hrf : rootedOf D = false := by simpa using hr
    obtain ⟨W, hW⟩ : ∃ W, wd = some W := by
      rcases hav with h | h
      · exact absurd h hr
      · exact Option.isSome_iff_exists.1 h
    have hWr := hwd W hW
    have hWne : W ≠ [] := by
      intro h
      rw [h] at hWr
      simp [rootedOf] at hWr
    have hsegW : ∀ s ∈ splitSlash W, '/' ∉ s := fun s hs => splitSlash_mem_noSlash W s hs
    have hokD := foldl_segStep_ok false (splitSlash D) (0, []) hsegD (by simp) (by simp)
    have hokW := foldl_segStep_ok true (splitSlash W) (0, []) hsegW (fun _ => rfl) (by simp)
    have hokWD := foldl_segStep_ok true (splitSlash D) _ hsegD hokW.1 hokW.2
    have hnames : ∀ nm ∈ e :: (List.foldl (segStep false) (0, []) (splitSlash D)).2,
        IsName nm := by
      intro x hx
      rcases List.mem_cons.1 hx with rfl | hx
      · exact he
      · exact hokD.2 x hx
    have hbuf : stateBuf false ((List.foldl (segStep false) (0, []) (splitSlash D)).1,
        e :: (List.foldl (segStep false) (0, []) (splitSlash D)).2) ≠ [] := by
      intro h
      have := bufOf_length_gt false
        (baseBuf false (List.foldl (segStep false) (0, []) (splitSlash D)).1) e
        (List.foldl (segStep false) (0, []) (splitSlash D)).2 he.1
      simp only [stateBuf] at h
      rw [h] at this
      simp at this
    have hF : Clean (D ++ '/' :: n) =
        (stateBuf false ((List.foldl (segStep false) (0, []) (splitSlash D)).1,
          e :: (List.foldl (segStep false) (0, []) (splitSlash D)).2)).reverse := by
      rw [clean_eq, rootedOf_append D _ hD, hrf, splitSlash_append, List.foldl_append, hpush]
      simp [render, hbuf]
    have hsplitF := splitSlash_unrooted _ _ hnames hbuf
    have hFrel : rootedOf (Clean (D ++ '/' :: n)) = false := by
      by_contra hc
      have hc2 : rootedOf (Clean (D ++ '/' :: n)) = true := by simpa using hc
      have hh := rootedOf_splitSlash _ hc2
      rw [hF, hsplitF] at hh
      have hmem := List.mem_of_mem_head? hh
      exact replay_ne_nil _ hnames [] hmem rfl
    have hdir : (Abs wd D).1 = render true (0,
        (List.foldl (segStep true) (List.foldl (segStep true) (0, []) (splitSlash W))
          (splitSlash D)).2) := by
      simp only [Abs, isAbs_eq_rootedOf, hrf, hW, Bool.false_eq_true, if_false]
      rw [join_two W D hWne, clean_eq, rootedOf_append W _ hWne, hWr, splitSlash_append,
        List.foldl_append]
      conv_lhs => rw [prod_eta_zero _ (hokWD.1 rfl)]
    have hpath : (Abs wd (Clean (D ++ '/' :: n))).1 = render true (0, e ::
        (List.foldl (segStep true) (List.foldl (segStep true) (0, []) (splitSlash W))
          (splitSlash D)).2) := by
      simp only [Abs, isAbs_eq_rootedOf, hFrel, hW, Bool.false_eq_true, if_false]
      rw [join_two W _ hWne, clean_eq, rootedOf_append W _ hWne, hWr, splitSlash_append,
        List.foldl_append, hF, hsplitF]
      have hrep : replay ((List.foldl (segStep false) (0, []) (splitSlash D)).1,
          e :: (List.foldl (segStep false) (0, []) (splitSlash D)).2) =
          replay (List.foldl (segStep false) (0, []) (splitSlash D)) ++ [e] := by
        simp [replay]
      rw [hrep, List.foldl_append,
        foldl_replay _ (splitSlash D) (0, []) (by simp) hsegD]
      simp only [replay, List.replicate_zero, List.reverse_nil, List.append_nil, List.nil_append,
        List.foldl_cons, List.foldl_nil]
      rw [segStep_name true _ e he, hokWD.1 rfl]
    rw [hpath, hdir]
    exact render_rooted_push _ e hokWD.2

/-! ### `Base` and the canonical name -/

theorem lastElement_noSlash (e : GoString) (h : '/' ∉ e) : lastElement e = e := by
  unfold lastElement
  have : e.reverse.takeWhile (fun c => !IsPathSeparator c) = e.reverse := by
    rw [List.takeWhile_eq_self_iff]
    intro c hc
    have hc2 : c ∈ e := List.mem_reverse.1 hc
    have : c ≠ '/' := fun h2 => h (h2 ▸ hc2)
    simp [IsPathSeparator, this]
  rw [this, List.reverse_reverse]

theorem lastElement_not_mem (p : GoString) : '/' ∉ lastElement p := by
  unfold lastElement
  intro h
  exact takeWhile_noSlash p.reverse (List.mem_reverse.1 h)

theorem base_shape (s : GoString) : Base s = ['/'] ∨ (Base s ≠ [] ∧ '/' ∉ Base s) := by
  unfold Base
  split
  · right; decide
  · simp only
    split
    · left; rfl
    · rename_i h
      exact Or.inr ⟨h, lastElement_not_mem _⟩

theorem stripTrailingSlashes_name (n : GoString) (h : '/' ∉ n) : stripTrailingSlashes n = n := by
  unfold stripTrailingSlashes
  have : n.reverse.dropWhile IsPathSeparator = n.reverse := by
    cases hr : n.reverse with
    | nil => rfl
    | cons c cs =>
      have hc : c ∈ n := List.mem_reverse.1 (by rw [hr]; simp)
      have : c ≠ '/' := fun h2 => h (h2 ▸ hc)
      simp [IsPathSeparator, this]
  rw [this, List.reverse_reverse]

theorem base_name (n : GoString) (hne : n ≠ []) (h : '/' ∉ n) : Base n = n := by
  unfold Base
  rw [if_neg hne]
  simp only [stripTrailingSlashes_name n h, lastElement_noSlash n h, if_neg hne]

theorem base_slashes (s : GoString) (hne : s ≠ []) (h : ∀ c ∈ s, c = '/') : Base s = ['/'] := by
  unfold Base
  rw [if_neg hne]
  have : stripTrailingSlashes s = [] := by
    unfold stripTrailingSlashes
    simp only [List.reverse_eq_nil_iff, List.dropWhile_eq_nil_iff, List.mem_reverse]
    intro c hc
    simp [IsPathSeparator, h c hc]
  simp [this, lastElement]

/-- Every input with a non-separator character splits into a directory part
(empty or ending in a separator), a non-empty final segment and trailing
separators. -/
theorem final_segment_decomp (s : GoString) (h : ∃ c ∈ s, c ≠ '/') :
    ∃ a e sl, s = a ++ e ++ sl ∧ (a = [] ∨ ∃ a0, a = a0 ++ ['/']) ∧ e ≠ [] ∧ '/' ∉ e ∧
      ∀ c ∈ sl, c = '/' := by
  induction s with
  | nil => simp at h
  | cons c s ih =>
    by_cases hs : ∃ d ∈ s, d ≠ '/'
    · obtain ⟨a, e, sl, hdec, ha, he, hno, hsl⟩ := ih hs
      rcases ha with ha | ⟨a0, ha⟩
      · subst ha
        by_cases hc : c = '/'
        · exact ⟨['/'], e, sl, by simp [hdec, hc], Or.inr ⟨[], rfl⟩, he, hno, hsl⟩
        · refine ⟨[], c :: e, sl, by simp [hdec], Or.inl rfl, by simp, ?_, hsl⟩
          intro hm
          rcases List.mem_cons.1 hm with h1 | h1
          · exact hc h1.symm
          · exact hno h1
      · exact ⟨c :: a, e, sl, by simp [hdec], Or.inr ⟨c :: a0, by simp [ha]⟩, he, hno, hsl⟩
    · have hall : ∀ d ∈ s, d = '/' := by
        intro d hd
        by_contra hne
        exact hs ⟨d, hd, hne⟩
      have hc : c ≠ '/' := by
        obtain ⟨d, hd, hne⟩ := h
        rcases List.mem_cons.1 hd with h1 | h1
        · exact h1 ▸ hne
        · exact absurd (hall d h1) hne
      exact ⟨[], [c], s, by simp, Or.inl rfl, by simp, by simpa using hc.symm, hall⟩

theorem base_decomp (a e sl : GoString) (ha : a = [] ∨ ∃ a0, a = a0 ++ ['/']) (he : e ≠ [])
    (hno : '/' ∉ e) (hsl : ∀ c ∈ sl, c = '/') : Base (a ++ e ++ sl) = e := by
  have hne : a ++ e ++ sl ≠ [] := by simp [he]
  have hsep : ∀ c ∈ sl.reverse, IsPathSeparator c = true := by
    intro c hc
    simp [IsPathSeparator, hsl c (List.mem_reverse.1 hc)]
  have hnot : ∀ c ∈ e.reverse, (!IsPathSeparator c) = true := by
    intro c hc
    have : c ≠ '/' := fun h2 => hno (h2 ▸ List.mem_reverse.1 hc)
    simp [IsPathSeparator, this]
  have hstrip : stripTrailingSlashes (a ++ e ++ sl) = a ++ e := by
    unfold stripTrailingSlashes
    rw [List.reverse_append, List.dropWhile_append_of_pos hsep]
    have : (a ++ e).reverse.dropWhile IsPathSeparator = (a ++ e).reverse := by
      cases hr : e.reverse with
      | nil => simp at hr; exact absurd hr he
      | cons c cs =>
        have hc := hnot c (by rw [hr]; simp)
        rw [List.reverse_append, hr]
        simp only [List.cons_append]
        rw [List.dropWhile_cons_of_neg (by simpa using hc)]
    rw [this, List.reverse_reverse]
  have hlast : lastElement (a ++ e) = e := by
    unfold lastElement
    rw [List.reverse_append, List.takeWhile_append_of_pos hnot]
    rcases ha with ha | ⟨a0, ha⟩
    · subst ha
      simp
    · subst ha
      simp [IsPathSeparator]
  unfold Base
  rw [if_neg hne]
  simp only [hstrip, hlast, if_neg he]

theorem filter_splitSlash_slashes (sl : GoString) (hsl : ∀ c ∈ sl, c = '/') :
    (splitSlash sl).filter (fun seg => seg ≠ []) = [] := by
  induction sl with
  | nil => simp [splitSlash]
  | cons c cs ih =>
    have hc : c = '/' := hsl c (by simp)
    subst hc
    rw [splitSlash_slash]
    simpa using ih (fun d hd => hsl d (by simp [hd]))

theorem filter_splitSlash_final (e sl : GoString) (he : e ≠ []) (hno : '/' ∉ e)
    (hsl : ∀ c ∈ sl, c = '/') :
    (splitSlash (e ++ sl)).filter (fun seg => seg ≠ []) = [e] := by
  cases sl with
  | nil => simp [splitSlash_noSlash e hno, he]
  | cons c cs =>
    have hc : c = '/' := hsl c (by simp)
    subst hc
    rw [splitSlash_elem e cs hno, List.filter_cons]
    simp only [ne_eq, he, not_false_eq_true, decide_True, if_true]
    rw [filter_splitSlash_slashes cs (fun d hd => hsl d (by simp [hd]))]

theorem specFinalSegment_decomp (a e sl : GoString) (ha : a = [] ∨ ∃ a0, a = a0 ++ ['/'])
    (he : e ≠ []) (hno : '/' ∉ e) (hsl : ∀ c ∈ sl, c = '/') :
    specFinalSegment (a ++ e ++ sl) = e := by
  unfold specFinalSegment
  rcases ha with ha | ⟨a0, ha⟩
  · subst ha
    rw [List.nil_append, filter_splitSlash_final e sl he hno hsl]
    rfl
  · subst ha
    have : a0 ++ ['/'] ++ e ++ sl = a0 ++ '/' :: (e ++ sl) := by simp
    rw [this, splitSlash_append, List.filter_append, filter_splitSlash_final e sl he hno hsl]
    simp

theorem base_eq_specFinalSegment (s : GoString) (h : ∃ c ∈ s, c ≠ '/') :
    Base s = specFinalSegment s ∧ Base s ≠ [] ∧ '/' ∉ Base s := by
  obtain ⟨a, e, sl, hdec, ha, he, hno, hsl⟩ := final_segment_decomp s h
  rw [hdec, base_decomp a e sl ha he hno hsl, specFinalSegment_decomp a e sl ha he hno hsl]
  exact ⟨rfl, he, hno⟩

theorem dotTxt_noSlash : '/' ∉ dotTxt := by decide

/-- The canonical name is `/.txt` or a real path element ending in `.txt`. -/
theorem safeNameOf_shape (s : GoString) :
    safeNameOf s = '/' :: dotTxt ∨ (IsName (safeNameOf s) ∧ dotTxt <:+ safeNameOf s) := by
  rcases base_shape s with hb | ⟨hne, hno⟩
  · left
    simp only [safeNameOf, hb]
    rfl
  · right
    have key : ∀ n : GoString, '/' ∉ n → dotTxt <:+ n → IsName n := by
      intro n hn hsuf
      have hlen : 4 ≤ n.length := by
        have := List.IsSuffix.length_le hsuf
        simpa [dotTxt] using this
      refine ⟨?_, hn, ?_, ?_⟩ <;> intro h <;> rw [h] at hlen <;> simp at hlen
    simp only [safeNameOf]
    by_cases hs : HasSuffix (Base s) dotTxt = true
    · simp only [hs, Bool.not_true, Bool.false_eq_true, if_false]
      have hsuf := (hasSuffix_iff _ _).1 hs
      exact ⟨key _ hno hsuf, hsuf⟩
    · simp only [hs, Bool.not_false, if_true]
      have hsuf : dotTxt <:+ Base s ++ dotTxt := ⟨Base s, rfl⟩
      refine ⟨key _ ?_ hsuf, hsuf⟩
      intro hm
      rcases List.mem_append.1 hm with h1 | h1
      · exact hno h1
      · exact dotTxt_noSlash h1

/-- The canonical name contributes exactly one element to a joined path:
its last element. -/
theorem safeNameOf_push (s : GoString) :
    IsName (lastElement (safeNameOf s)) ∧
      ∀ (rooted : Bool) (st : Nat × List GoString),
        List.foldl (segStep rooted) st (splitSlash (safeNameOf s)) =
          (st.1, lastElement (safeNameOf s) :: st.2) := by
  rcases safeNameOf_shape s with h | ⟨hname, _⟩
  · rw [h]
    have h1 : lastElement ('/' :: dotTxt) = dotTxt := by decide
    have h2 : splitSlash ('/' :: dotTxt) = [[], dotTxt] := by decide
    have h3 : IsName dotTxt := by
      refine ⟨?_, ?_, ?_, ?_⟩ <;> decide
    rw [h1, h2]
    refine ⟨h3, ?_⟩
    intro rooted st
    simp [segStep_nil, segStep_name rooted st dotTxt h3]
  · rw [lastElement_noSlash _ hname.2.1, splitSlash_noSlash _ hname.2.1]
    refine ⟨hname, ?_⟩
    intro rooted st
    simp [segStep_name rooted st _ hname]

theorem getSafeFilePath_def (wd : Option GoString) (D s : GoString) :
    getSafeFilePath wd D s =
      if (!HasPrefix (Abs wd (Join [D, safeNameOf s])).1 ((Abs wd D).1 ++ ['/']) &&
          (Abs wd (Join [D, safeNameOf s])).1 != (Abs wd D).1) = true then
        Except.error OsError.ErrInvalid
      else Except.ok ((Abs wd (Join [D, safeNameOf s])).1, safeNameOf s) := rfl

/-- Two inputs with the same canonical name resolve alike. -/
theorem getSafeFilePath_congr (wd : Option GoString) (D s t : GoString)
    (h : safeNameOf s = safeNameOf t) : getSafeFilePath wd D s = getSafeFilePath wd D t := by
  rw [getSafeFilePath_def, getSafeFilePath_def, h]

theorem getSafeFilePath_name (wd : Option GoString) (D s p n : GoString)
    (h : getSafeFilePath wd D s = Except.ok (p, n)) : n = safeNameOf s := by
  rw [getSafeFilePath_def] at h
  split at h
  · cases h
  · injection h with h
    exact (Prod.mk.inj h).2.symm

theorem join_unrooted (D n : GoString) (hD : D ≠ []) (hr : rootedOf D = false) :
    rootedOf (Join [D, safeNameOf n]) = false := by
  have hsegD : ∀ s ∈ splitSlash D, '/' ∉ s := fun s hs => splitSlash_mem_noSlash D s hs
  obtain ⟨he, hpush⟩ := safeNameOf_push n
  have hokD := foldl_segStep_ok false (splitSlash D) (0, []) hsegD (by simp) (by simp)
  have hnames : ∀ nm ∈ lastElement (safeNameOf n) ::
      (List.foldl (segStep false) (0, []) (splitSlash D)).2, IsName nm := by
    intro x hx
    rcases List.mem_cons.1 hx with rfl | hx
    · exact he
    · exact hokD.2 x hx
  have hbuf : stateBuf false ((List.foldl (segStep false) (0, []) (splitSlash D)).1,
      lastElement (safeNameOf n) :: (List.foldl (segStep false) (0, []) (splitSlash D)).2)
      ≠ [] := by
    intro h
    have := bufOf_length_gt false
      (baseBuf false (List.foldl (segStep false) (0, []) (splitSlash D)).1)
      (lastElement (safeNameOf n))
      (List.foldl (segStep false) (0, []) (splitSlash D)).2 he.1
    simp only [stateBuf] at h
    rw [h] at this
    simp at this
  have hF : Clean (D ++ '/' :: safeNameOf n) =
      (stateBuf false ((List.foldl (segStep false) (0, []) (splitSlash D)).1,
        lastElement (safeNameOf n) ::
          (List.foldl (segStep false) (0, []) (splitSlash D)).2)).reverse := by
    rw [clean_eq, rootedOf_append D _ hD, hr, splitSlash_append, List.foldl_append, hpush]
    simp [render, hbuf]
  have hsplitF := splitSlash_unrooted _ _ hnames hbuf
  rw [join_two D _ hD]
  by_contra hc
  have hc2 : rootedOf (Clean (D ++ '/' :: safeNameOf n)) = true := by simpa using hc
  have hh := rootedOf_splitSlash _ hc2
  rw [hF, hsplitF] at hh
  exact replay_ne_nil _ hnames [] (List.mem_of_mem_head? hh) rfl

/-- What `getSafeFilePath` returns for a non-empty root directory: it rejects
exactly when the resolved root is `/`; otherwise it accepts, and the resolved
path is the resolved root, a separator and the last element of the canonical
name (or the empty string when the root is relative and `Getwd` fails). -/
theorem getSafeFilePath_result (wd : Option GoString) (D s : GoString) (hD : D ≠ [])
    (hwd : ∀ w, wd = some w → rootedOf w = true) :
    getSafeFilePath wd D s =
      if (Abs wd D).1 = ['/'] then Except.error OsError.ErrInvalid
      else if rootedOf D = true ∨ wd.isSome = true then
        Except.ok ((Abs wd D).1 ++ '/' :: lastElement (safeNameOf s), safeNameOf s)
      else Except.ok ([], safeNameOf s) := by
  obtain ⟨he, hpush⟩ := safeNameOf_push s
  by_cases hav : rootedOf D = true ∨ wd.isSome = true
  · have hshape := resolved_shape wd D (safeNameOf s) _ hD hwd hav he hpush
    rw [getSafeFilePath_def, hshape]
    by_cases hroot : (Abs wd D).1 = ['/']
    · have hc : lastElement (safeNameOf s) ≠ [] := he.1
      have hhd : ¬ (['/', '/'] <+: '/' :: lastElement (safeNameOf s)) := by
        rintro ⟨t, ht⟩
        have h1 : lastElement (safeNameOf s) = '/' :: t := by
          simpa using ht.symm
        exact he.2.1 (by rw [h1]; simp)
      have hp : HasPrefix ('/' :: lastElement (safeNameOf s)) (['/'] ++ ['/']) = false := by
        rw [Bool.eq_false_iff]
        intro h
        exact hhd ((hasPrefix_iff _ _).1 h)
      simp only [hroot, if_true, hp]
      simp [hc]
    · have hp : HasPrefix ((Abs wd D).1 ++ '/' :: lastElement (safeNameOf s))
          ((Abs wd D).1 ++ ['/']) = true :=
        (hasPrefix_iff _ _).2 ⟨lastElement (safeNameOf s), by simp⟩
      simp only [if_neg hroot, hp, if_pos hav]
      simp
  · have hr : rootedOf D = false := by
      by_contra h
      exact hav (Or.inl (by simpa using h))
    have hwn : wd = none := by
      cases wd with
      | none => rfl
      | some w => exact absurd (Or.inr rfl) hav
    subst hwn
    have hj := join_unrooted D s hD hr
    have h1 : (Abs none D).1 = [] := by simp [Abs, isAbs_eq_rootedOf, hr]
    have h2 : (Abs none (Join [D, safeNameOf s])).1 = [] := by
      simp [Abs, isAbs_eq_rootedOf, hj]
    rw [getSafeFilePath_def, h1, h2]
    simp [hr, HasPrefix]

/-! ### The filesystem model -/

theorem fsLookup_nil_path (fs : FS) : fsLookup fs [] = none := by
  cases fs with
  | nil => rfl
  | cons e rest =>
    obtain ⟨q, nd⟩ := e
    simp [fsLookup]

theorem fsLookup_ne_nil (fs : FS) (p : GoString) (nd : Node) (h : fsLookup fs p = some nd) :
    p ≠ [] := by
  intro hp
  rw [hp, fsLookup_nil_path] at h
  cases h

theorem fsLookup_cons (q p : GoString) (nd : Node) (rest : FS) (hp : p ≠ []) :
    fsLookup ((q, nd) :: rest) p = if q = p then some nd else fsLookup rest p := by
  simp [fsLookup, hp]

theorem fsLookup_map_same (fs : FS) (p : GoString) (nd : Node) (hp : p ≠ [])
    (h : (fsLookup fs p).isSome = true) :
    fsLookup (fs.map (fun e => if e.1 = p then (p, nd) else e)) p = some nd := by
  induction fs with
  | nil => simp [fsLookup] at h
  | cons e rest ih =>
    obtain ⟨q, m⟩ := e
    rw [fsLookup_cons q p m rest hp] at h
    by_cases hq : q = p
    · simp [List.map_cons, hq, fsLookup_cons _ _ _ _ hp]
    · rw [if_neg hq] at h
      simp only [List.map_cons, hq, if_false]
      rw [fsLookup_cons q p m _ hp, if_neg hq]
      exact ih h

theorem fsLookup_map_other (fs : FS) (p q : GoString) (nd : Node) (hq : q ≠ p) :
    fsLookup (fs.map (fun e => if e.1 = p then (p, nd) else e)) q = fsLookup fs q := by
  by_cases hq0 : q = []
  · rw [hq0, fsLookup_nil_path, fsLookup_nil_path]
  · induction fs with
    | nil => rfl
    | cons e rest ih =>
      obtain ⟨r, m⟩ := e
      by_cases hr : r = p
      · have hrq : ¬ p = q := fun h => hq h.symm
        have hrq2 : ¬ r = q := fun h => hq (h.symm.trans hr)
        simp only [List.map_cons, hr, if_true]
        rw [fsLookup_cons p q nd _ hq0, if_neg hrq, ih, ← hr, fsLookup_cons r q m _ hq0,
          if_neg hrq2]
      · simp only [List.map_cons, hr, if_false]
        rw [fsLookup_cons r q m _ hq0, fsLookup_cons r q m _ hq0, ih]

theorem fsLookup_append_new (fs : FS) (p q : GoString) (nd : Node) (hq : q ≠ []) :
    fsLookup (fs ++ [(p, nd)]) q =
      match fsLookup fs q with
      | some m => some m
      | none => if p = q then some nd else none := by
  induction fs with
  | nil => simp [fsLookup, hq]
  | cons e rest ih =>
    obtain ⟨r, m⟩ := e
    rw [List.cons_append, fsLookup_cons r q m _ hq, fsLookup_cons r q m _ hq]
    by_cases hr : r = q
    · simp [hr]
    · simp only [hr, if_false]
      exact ih

theorem fsLookup_fsSet_same (fs : FS) (p : GoString) (nd : Node) (hp : p ≠ []) :
    fsLookup (fsSet fs p nd) p = some nd := by
  unfold fsSet
  split
  · rename_i h
    exact fsLookup_map_same fs p nd hp h
  · rename_i h
    have hnone : fsLookup fs p = none := by
      cases hl : fsLookup fs p with
      | none => rfl
      | some m => simp [hl] at h
    rw [fsLookup_append_new fs p p nd hp, hnone]
    simp

theorem fsLookup_fsRemove_same (fs : FS) (p : GoString) : fsLookup (fsRemove fs p) p = none := by
  by_cases hp : p = []
  · rw [hp, fsLookup_nil_path]
  · induction fs with
    | nil => rfl
    | cons e rest ih =>
      obtain ⟨r, m⟩ := e
      by_cases hr : r = p
      · simpa [fsRemove, hr] using ih
      · have : fsRemove ((r, m) :: rest) p = (r, m) :: fsRemove rest p := by
          simp [fsRemove, hr]
        rw [this, fsLookup_cons r p m _ hp, if_neg hr]
        exact ih

theorem fsLookup_fsRemove_other (fs : FS) (p q : GoString) (hq : q ≠ p) :
    fsLookup (fsRemove fs p) q = fsLookup fs q := by
  by_cases hq0 : q = []
  · rw [hq0, fsLookup_nil_path, fsLookup_nil_path]
  · induction fs with
    | nil => rfl
    | cons e rest ih =>
      obtain ⟨r, m⟩ := e
      by_cases hr : r = p
      · have hrq : ¬ r = q := fun h => hq (h.symm.trans hr)
        have : fsRemove ((r, m) :: rest) p = fsRemove rest p := by
          simp [fsRemove, hr]
        rw [this, fsLookup_cons r q m _ hq0, if_neg hrq]
        exact ih
      · have : fsRemove ((r, m) :: rest) p = (r, m) :: fsRemove rest p := by
          simp [fsRemove, hr]
        rw [this, fsLookup_cons r q m _ hq0, fsLookup_cons r q m _ hq0, ih]

theorem fsLookup_fsSet_other (fs : FS) (p q : GoString) (nd : Node) (hq : q ≠ p) :
    fsLookup (fsSet fs p nd) q = fsLookup fs q := by
  unfold fsSet
  split
  · exact fsLookup_map_other fs p q nd hq
  · by_cases hq0 : q = []
    · rw [hq0, fsLookup_nil_path, fsLookup_nil_path]
    · rw [fsLookup_append_new fs p q nd hq0]
      have hpq : ¬ p = q := fun h => hq h.symm
      cases fsLookup fs q with
      | some m => rfl
      | none => simp [hpq]

theorem parentDir_nil : parentDir [] = [] := by decide

theorem parentDir_isPrefix (q : GoString) : parentDir q <+: q := by
  have hd : (q.reverse.dropWhile (fun c => !IsPathSeparator c)).reverse <+: q := by
    refine ⟨(q.reverse.takeWhile (fun c => !IsPathSeparator c)).reverse, ?_⟩
    rw [← List.reverse_append, List.takeWhile_append_dropWhile, List.reverse_reverse]
  unfold parentDir
  simp only
  split
  · exact hd
  · exact (List.dropLast_prefix _).trans hd

theorem parentDir_length_lt (q : GoString) (h : parentDir q ≠ q) :
    (parentDir q).length < q.length := by
  have hp := parentDir_isPrefix q
  rcases Nat.lt_or_ge (parentDir q).length q.length with hlt | hge
  · exact hlt
  · exact absurd (hp.eq_of_length (Nat.le_antisymm hp.length_le hge)) h

/-- The walk to the directory of `p` never consults `p` itself. -/
theorem ancestorError_congr (fs fs1 : FS) (p : GoString)
    (h : ∀ q, q ≠ p → fsLookup fs1 q = fsLookup fs q) :
    ∀ (fuel : Nat) (q : GoString), q.length ≤ p.length →
      ancestorError fs1 fuel q = ancestorError fs fuel q := by
  intro fuel
  induction fuel with
  | zero => intro q _; rfl
  | succ fuel ih =>
    intro q hq
    simp only [ancestorError]
    by_cases hstop : parentDir q = q ∨ parentDir q = []
    · rw [if_pos hstop, if_pos hstop]
    · rw [if_neg hstop, if_neg hstop]
      have hlt := parentDir_length_lt q (fun h => hstop (Or.inl h))
      have hne : parentDir q ≠ p := by
        intro heq
        rw [heq] at hlt
        omega
      rw [ih (parentDir q) (by omega), h (parentDir q) hne]

theorem pathError_congr (fs fs1 : FS) (p : GoString)
    (h : ∀ q, q ≠ p → fsLookup fs1 q = fsLookup fs q) : pathError fs1 p = pathError fs p := by
  unfold pathError
  rw [ancestorError_congr fs fs1 p h p.length p (Nat.le_refl _)]

theorem pathError_ne_nil (fs : FS) (p : GoString) (h : pathError fs p = none) : p ≠ [] := by
  intro hp
  rw [hp] at h
  simp [pathError] at h

/-- What a successful `WriteFile` did. -/
theorem writeFile_ok (fs fs1 : FS) (p data : GoString)
    (h : WriteFile fs p data = Except.ok fs1) :
    pathError fs p = none ∧ fs1 = fsSet fs p (Node.file data) := by
  unfold WriteFile at h
  split at h
  · cases h
  · rename_i hpe
    refine ⟨hpe, ?_⟩
    split at h
    · injection h with h
      exact h.symm
    · cases h
    · split at h
      · injection h with h
        exact h.symm
      · cases h
      · cases h

/-- After a successful `WriteFile` the path names a regular file with the
written content. -/
theorem fsLookup_writeFile (fs fs1 : FS) (p data : GoString)
    (h : WriteFile fs p data = Except.ok fs1) : fsLookup fs1 p = some (Node.file data) := by
  obtain ⟨hpe, hfs⟩ := writeFile_ok fs fs1 p data h
  rw [hfs]
  exact fsLookup_fsSet_same fs p _ (pathError_ne_nil fs p hpe)

/-- After a successful `WriteFile` the path can still be walked. -/
theorem pathError_writeFile (fs fs1 : FS) (p data : GoString)
    (h : WriteFile fs p data = Except.ok fs1) : pathError fs1 p = none := by
  obtain ⟨hpe, hfs⟩ := writeFile_ok fs fs1 p data h
  rw [hfs, pathError_congr fs _ p (fun q hq => fsLookup_fsSet_other fs p q _ hq)]
  exact hpe

/-- What a successful `Remove` did. -/
theorem remove_ok (fs fs1 : FS) (p : GoString) (h : Remove fs p = Except.ok fs1) :
    pathError fs p = none ∧ (fsLookup fs p).isSome = true ∧ fs1 = fsRemove fs p := by
  unfold Remove at h
  split at h
  · cases h
  · rename_i hpe
    refine ⟨hpe, ?_⟩
    split at h
    · rename_i c hl
      injection h with h
      exact ⟨by rw [hl]; rfl, h.symm⟩
    · rename_i hl
      split at h
      · cases h
      · injection h with h
        exact ⟨by rw [hl]; rfl, h.symm⟩
    · cases h

theorem listResponse_foldl (files : List FileInfo) :
    ∀ acc : List FileResponse,
      files.foldl (fun response f =>
        if (!f.IsDir && HasSuffix f.Name dotTxt) = true then
          response ++
            [(⟨TrimSuffix f.Name dotTxt, f.Name, TrimSuffix f.Name dotTxt⟩ : FileResponse)]
        else response) acc = acc ++ specListing files := by
  induction files with
  | nil => intro acc; simp [specListing]
  | cons f rest ih =>
    intro acc
    rw [List.foldl_cons, ih]
    by_cases hd : f.IsDir = true
    · simp [specListing, hd]
    · have hd2 : f.IsDir = false := by simpa using hd
      by_cases hs : HasSuffix f.Name dotTxt = true
      · have hsuf := (hasSuffix_iff _ _).1 hs
        have htrim : TrimSuffix f.Name dotTxt = f.Name.take (f.Name.length - 4) := by
          unfold TrimSuffix
          rw [if_pos hs]
          rfl
        simp [specListing, hd2, hs, hsuf, htrim]
      · have hsuf : ¬ dotTxt <:+ f.Name := fun h => hs ((hasSuffix_iff _ _).2 h)
        simp [specListing, hd2, hs, hsuf]

theorem listResponse_eq (files : List FileInfo) : listResponse files = specListing files := by
  unfold listResponse
  have := listResponse_foldl files []
  simpa using this

/-! ## The claims -/

/-- C1: whenever `getSafeFilePath` succeeds, the returned path is the resolved
root directory itself or begins with the resolved root directory followed
immediately by the separator, so what follows the root in the returned path is
empty or starts with a separator (a sibling such as `root-evil` is never
returned).  For a non-empty root that can be resolved the returned path is the
root, a separator and one separator-free element. -/
theorem C1_returned_path_inside_root (wd : Option GoString) (filesDir s p n : GoString)
    (h : getSafeFilePath wd filesDir s = Except.ok (p, n)) :
    (p = (Abs wd filesDir).1 ∨ ((Abs wd filesDir).1 ++ ['/']) <+: p) ∧
    (∀ t, p = (Abs wd filesDir).1 ++ t → t = [] ∨ t.head? = some '/') ∧
    (filesDir ≠ [] → (∀ w, wd = some w → rootedOf w = true) →
      (rootedOf filesDir = true ∨ wd.isSome = true) →
      p = (Abs wd filesDir).1 ++ '/' :: lastElement n ∧ lastElement n ≠ [] ∧
        '/' ∉ lastElement n) := by
  have hguard : p = (Abs wd filesDir).1 ∨ ((Abs wd filesDir).1 ++ ['/']) <+: p := by
    rw [getSafeFilePath_def] at h
    split at h
    · cases h
    · rename_i hc
      injection h with h
      have hp := (Prod.mk.inj h).1
      rw [hp] at hc
      by_cases hpre : HasPrefix p ((Abs wd filesDir).1 ++ ['/']) = true
      · exact Or.inr ((hasPrefix_iff _ _).1 hpre)
      · left
        by_contra hne
        apply hc
        simp [hpre, hne]
  refine ⟨hguard, ?_, ?_⟩
  · intro t ht
    rcases hguard with h1 | ⟨u, hu⟩
    · left
      have : (Abs wd filesDir).1 ++ t = (Abs wd filesDir).1 ++ [] := by
        rw [← ht, List.append_nil]; exact h1
      exact List.append_cancel_left this
    · right
      rw [ht, List.append_assoc] at hu
      have := List.append_cancel_left hu
      rw [← this]
      rfl
  · intro hD hwd hav
    have hn := getSafeFilePath_name wd filesDir s p n h
    have hres := getSafeFilePath_result wd filesDir s hD hwd
    rw [h] at hres
    by_cases hroot : (Abs wd filesDir).1 = ['/']
    · rw [if_pos hroot] at hres
      cases hres
    · rw [if_neg hroot, if_pos hav] at hres
      injection hres with hres
      have hp := (Prod.mk.inj hres).1
      have hname := (safeNameOf_push s).1
      rw [hn]
      exact ⟨hp, hname.1, hname.2.1⟩

/-- C1, at the traversal attempt `../../etc/passwd` with the root `files` under `/srv`. -/
theorem C1_returned_path_inside_root_witness :
    getSafeFilePath exampleWd mainFilesDir "../../etc/passwd".toList =
        Except.ok ("/srv/files/passwd.txt".toList, "passwd.txt".toList) ∧
      ("/srv/files/passwd.txt".toList = (Abs exampleWd mainFilesDir).1 ∨
        ((Abs exampleWd mainFilesDir).1 ++ ['/']) <+: "/srv/files/passwd.txt".toList) :=
  ⟨rfl, (C1_returned_path_inside_root exampleWd mainFilesDir "../../etc/passwd".toList
    "/srv/files/passwd.txt".toList "passwd.txt".toList rfl).1⟩

theorem safeNameOf_plain (n : GoString) (hne : n ≠ []) (hsep : '/' ∉ n)
    (htxt : HasSuffix n dotTxt = false) : safeNameOf n = n ++ dotTxt := by
  simp [safeNameOf, base_name n hne hsep, htxt]

theorem safeNameOf_suffixed (n : GoString) (hsep : '/' ∉ n) :
    safeNameOf (n ++ dotTxt) = n ++ dotTxt := by
  have hne : n ++ dotTxt ≠ [] := by simp [dotTxt]
  have hno : '/' ∉ n ++ dotTxt := by
    intro hm
    rcases List.mem_append.1 hm with h1 | h1
    · exact hsep h1
    · exact dotTxt_noSlash h1
  have hs : HasSuffix (n ++ dotTxt) dotTxt = true := (hasSuffix_iff _ _).2 ⟨n, rfl⟩
  simp [safeNameOf, base_name _ hne hno, hs]

/-- C2: for a base name `n` that is non-empty, has no separator and does not
end in `.txt`, `getSafeFilePath` yields the canonical name `n + ".txt"` for
`n` and for `n + ".txt"` alike (the suffix is not doubled), both inputs have
the same result, and the result is a success whenever the root is non-empty
and does not resolve to `/`. -/
theorem C2_suffix_added_once (wd : Option GoString) (filesDir n : GoString) (hne : n ≠ [])
    (hsep : '/' ∉ n) (htxt : HasSuffix n dotTxt = false) :
    (∀ p c, getSafeFilePath wd filesDir n = Except.ok (p, c) → c = n ++ dotTxt) ∧
    (∀ p c, getSafeFilePath wd filesDir (n ++ dotTxt) = Except.ok (p, c) → c = n ++ dotTxt) ∧
    getSafeFilePath wd filesDir (n ++ dotTxt) = getSafeFilePath wd filesDir n ∧
    (filesDir ≠ [] → (∀ w, wd = some w → rootedOf w = true) → (Abs wd filesDir).1 ≠ ['/'] →
      ∃ p, getSafeFilePath wd filesDir n = Except.ok (p, n ++ dotTxt) ∧
        getSafeFilePath wd filesDir (n ++ dotTxt) = Except.ok (p, n ++ dotTxt)) := by
  have h1 := safeNameOf_plain n hne hsep htxt
  have h2 := safeNameOf_suffixed n hsep
  have hcongr := getSafeFilePath_congr wd filesDir (n ++ dotTxt) n (by rw [h1, h2])
  refine ⟨?_, ?_, hcongr, ?_⟩
  · intro p c h
    rw [getSafeFilePath_name wd filesDir n p c h, h1]
  · intro p c h
    rw [getSafeFilePath_name wd filesDir _ p c h, h2]
  · intro hD hwd hroot
    have hres := getSafeFilePath_result wd filesDir n hD hwd
    rw [if_neg hroot, h1] at hres
    rw [hcongr]
    split at hres
    · exact ⟨_, hres, hres⟩
    · exact ⟨_, hres, hres⟩

/-- C2, at the base name `notes`. -/
theorem C2_suffix_added_once_witness :
    "notes".toList ≠ [] ∧ '/' ∉ "notes".toList ∧ HasSuffix "notes".toList dotTxt = false ∧
      getSafeFilePath exampleWd mainFilesDir "notes".toList =
        Except.ok ("/srv/files/notes.txt".toList, "notes.txt".toList) ∧
      getSafeFilePath exampleWd mainFilesDir ("notes".toList ++ dotTxt) =
        getSafeFilePath exampleWd mainFilesDir "notes".toList :=
  ⟨by decide, by decide, by decide, rfl,
    (C2_suffix_added_once exampleWd mainFilesDir "notes".toList (by decide) (by decide)
      (by decide)).2.2.1⟩

/-- C3: for an input with at least one non-separator character, the canonical
name that `getSafeFilePath` returns is the final path segment of the input with
`.txt` appended when missing, and it contains no separator;
`../../etc/passwd` gives `passwd.txt` and `a/b/c` gives `c.txt`. -/
theorem C3_canonical_name_is_final_segment (wd : Option GoString) (filesDir : GoString) :
    (∀ s p n, (∃ c ∈ s, c ≠ '/') → getSafeFilePath wd filesDir s = Except.ok (p, n) →
      n = specCanonicalName s ∧ '/' ∉ n) ∧
    (∀ p n, getSafeFilePath wd filesDir "../../etc/passwd".toList = Except.ok (p, n) →
      n = "passwd.txt".toList) ∧
    (∀ p n, getSafeFilePath wd filesDir "a/b/c".toList = Except.ok (p, n) →
      n = "c.txt".toList) := by
  refine ⟨?_, ?_, ?_⟩
  · intro s p n hs h
    have hn := getSafeFilePath_name wd filesDir s p n h
    obtain ⟨hb, hne, hno⟩ := base_eq_specFinalSegment s hs
    have hcanon : safeNameOf s = specCanonicalName s := by
      unfold safeNameOf specCanonicalName
      rw [← hb]
      by_cases hsuf : HasSuffix (Base s) dotTxt = true
      · simp [hsuf, (hasSuffix_iff _ _).1 hsuf]
      · have : ¬ dotTxt <:+ Base s := fun h => hsuf ((hasSuffix_iff _ _).2 h)
        simp [hsuf, this]
    refine ⟨by rw [hn, hcanon], ?_⟩
    rw [hn]
    rcases safeNameOf_shape s with hsl | ⟨hname, _⟩
    · exfalso
      have hbase : Base s = ['/'] := by
        by_cases hsuf : HasSuffix (Base s) dotTxt = true
        · have h1 : safeNameOf s = Base s := by simp [safeNameOf, hsuf]
          rw [h1] at hsl
          rw [hsl] at hno
          exact absurd (List.mem_cons_self _ _) hno
        · have h1 : safeNameOf s = Base s ++ dotTxt := by simp [safeNameOf, hsuf]
          rw [h1] at hsl
          exact List.append_cancel_right (hsl.trans (by rfl : '/' :: dotTxt = ['/'] ++ dotTxt))
      rw [hbase] at hno
      exact hno (List.mem_cons_self _ _)
    · exact hname.2.1
  · intro p n h
    rw [getSafeFilePath_name wd filesDir _ p n h]
    rfl
  · intro p n h
    rw [getSafeFilePath_name wd filesDir _ p n h]
    rfl

/-- C3, at the input `docs//a.b/` with the root `files` under `/srv`. -/
theorem C3_canonical_name_is_final_segment_witness :
    (∃ c ∈ "docs//a.b/".toList, c ≠ '/') ∧
      getSafeFilePath exampleWd mainFilesDir "docs//a.b/".toList =
        Except.ok ("/srv/files/a.b.txt".toList, "a.b.txt".toList) ∧
      "a.b.txt".toList = specCanonicalName "docs//a.b/".toList ∧ '/' ∉ "a.b.txt".toList :=
  ⟨⟨'d', by decide, by decide⟩, rfl,
    (C3_canonical_name_is_final_segment exampleWd mainFilesDir).1 "docs//a.b/".toList
      "/srv/files/a.b.txt".toList "a.b.txt".toList ⟨'d', by decide, by decide⟩ rfl⟩

theorem readFile_of_lookup (fs : FS) (p c : GoString) (hpe : pathError fs p = none)
    (h : fsLookup fs p = some (Node.file c)) : ReadFile fs p = Except.ok c := by
  simp [ReadFile, hpe, h]

theorem getFile_of_lookup (wd : Option GoString) (filesDir : GoString) (fs : FS)
    (name p n c : GoString) (hres : getSafeFilePath wd filesDir name = Except.ok (p, n))
    (hpe : pathError fs p = none) (h : fsLookup fs p = some (Node.file c)) :
    GetFile wd filesDir fs name = (⟨StatusOK, Payload.content c⟩, fs) := by
  simp [GetFile, hres, readFile_of_lookup fs p c hpe h]

theorem getFile_of_absent (wd : Option GoString) (filesDir : GoString) (fs : FS)
    (name p n : GoString) (hres : getSafeFilePath wd filesDir name = Except.ok (p, n))
    (hpe : pathError fs p = none) (h : fsLookup fs p = none) :
    GetFile wd filesDir fs name = (⟨StatusNotFound, Payload.error "File not found"⟩, fs) := by
  simp [GetFile, hres, ReadFile, hpe, h, IsNotExist]

/-- C4: for a filename the resolver accepts, any content and any filesystem
state in which the write succeeds, `SaveFile` answers 200 and a following
`GetFile` of the same name returns exactly that content, whatever the path
held before. -/
theorem C4_save_then_get (wd : Option GoString) (filesDir : GoString) (fs fs1 : FS)
    (name p n content : GoString) (body : GoMap)
    (hbody : (mapIndex body contentKey).getD [] = content)
    (hres : getSafeFilePath wd filesDir name = Except.ok (p, n))
    (hwrite : WriteFile fs p content = Except.ok fs1) :
    SaveFile wd filesDir fs name (some body) =
        (⟨StatusOK, Payload.written "File saved successfully" (TrimSuffix n dotTxt)⟩, fs1) ∧
      GetFile wd filesDir (SaveFile wd filesDir fs name (some body)).2 name =
        (⟨StatusOK, Payload.content content⟩, fs1) := by
  have hsave : SaveFile wd filesDir fs name (some body) =
      (⟨StatusOK, Payload.written "File saved successfully" (TrimSuffix n dotTxt)⟩, fs1) := by
    simp [SaveFile, hres, hbody, hwrite]
  refine ⟨hsave, ?_⟩
  rw [hsave]
  exact getFile_of_lookup wd filesDir fs1 name p n content hres
    (pathError_writeFile fs fs1 p content hwrite) (fsLookup_writeFile fs fs1 p content hwrite)

/-- C4, overwriting an existing `notes.txt` with a two-line text. -/
theorem C4_save_then_get_witness :
    GetFile exampleWd mainFilesDir
        (SaveFile exampleWd mainFilesDir
          (emptyRootFS ++ [("/srv/files/notes.txt".toList, Node.file "old".toList)])
          "notes".toList (some [(contentKey, "one\ntwo".toList)])).2 "notes".toList =
      (⟨StatusOK, Payload.content "one\ntwo".toList⟩,
        emptyRootFS ++ [("/srv/files/notes.txt".toList, Node.file "one\ntwo".toList)]) :=
  (C4_save_then_get exampleWd mainFilesDir
    (emptyRootFS ++ [("/srv/files/notes.txt".toList, Node.file "old".toList)])
    (emptyRootFS ++ [("/srv/files/notes.txt".toList, Node.file "one\ntwo".toList)])
    "notes".toList "/srv/files/notes.txt".toList "notes.txt".toList "one\ntwo".toList
    [(contentKey, "one\ntwo".toList)] rfl rfl rfl).2

/-- What a successful `CreateFile` did: the resolver accepted the name and
the write went through. -/
theorem createFile_ok (wd : Option GoString) (filesDir : GoString) (fs fs1 : FS) (r1 : Response)
    (name : GoString) (body : GoMap) (hname : mapIndex body filenameKey = some name)
    (h : CreateFile wd filesDir fs (some body) = (r1, fs1)) (hok : r1.status = StatusOK) :
    name ≠ [] ∧ ∃ p n, getSafeFilePath wd filesDir name = Except.ok (p, n) ∧
      WriteFile fs p ((mapIndex body contentKey).getD []) = Except.ok fs1 := by
  simp only [CreateFile, hname] at h
  by_cases hne : name = []
  · rw [if_pos hne] at h
    rw [← (Prod.mk.inj h).1] at hok
    exact absurd hok (by decide)
  · rw [if_neg hne] at h
    refine ⟨hne, ?_⟩
    cases hres : getSafeFilePath wd filesDir name with
    | error e =>
      rw [hres] at h
      rw [← (Prod.mk.inj h).1] at hok
      exact absurd hok (by decide)
    | ok pn =>
      obtain ⟨p, n⟩ := pn
      rw [hres] at h
      simp only at h
      cases hstat : Stat fs p with
      | ok info =>
        rw [hstat] at h
        rw [← (Prod.mk.inj h).1] at hok
        exact absurd hok (by decide)
      | error e =>
        rw [hstat] at h
        simp only at h
        cases hw : WriteFile fs p ((mapIndex body contentKey).getD []) with
        | error e2 =>
          rw [hw] at h
          rw [← (Prod.mk.inj h).1] at hok
          exact absurd hok (by decide)
        | ok fs2 =>
          rw [hw] at h
          have hfs : fs2 = fs1 := (Prod.mk.inj h).2
          rw [hfs] at hw
          exact ⟨p, n, rfl, hw⟩

/-- C5: if `CreateFile(name, c)` succeeds, a following `CreateFile(name, c2)`
fails with Conflict (409) and leaves the filesystem unchanged: the file still
contains `c`. -/
theorem C5_second_create_conflicts (wd : Option GoString) (filesDir : GoString) (fs fs1 : FS)
    (r1 : Response) (name c : GoString) (body body2 : GoMap)
    (hname : mapIndex body filenameKey = some name)
    (hcontent : (mapIndex body contentKey).getD [] = c)
    (hname2 : mapIndex body2 filenameKey = some name)
    (h : CreateFile wd filesDir fs (some body) = (r1, fs1)) (hok : r1.status = StatusOK) :
    CreateFile wd filesDir fs1 (some body2) =
        (⟨StatusConflict, Payload.error "File already exists"⟩, fs1) ∧
      GetFile wd filesDir (CreateFile wd filesDir fs1 (some body2)).2 name =
        (⟨StatusOK, Payload.content c⟩, fs1) := by
  obtain ⟨hne, p, n, hres, hw⟩ := createFile_ok wd filesDir fs fs1 r1 name body hname h hok
  rw [hcontent] at hw
  have hl := fsLookup_writeFile fs fs1 p c hw
  have hpe := pathError_writeFile fs fs1 p c hw
  have hsecond : CreateFile wd filesDir fs1 (some body2) =
      (⟨StatusConflict, Payload.error "File already exists"⟩, fs1) := by
    simp [CreateFile, hname2, hne, hres, Stat, hpe, hl]
  refine ⟨hsecond, ?_⟩
  rw [hsecond]
  exact getFile_of_lookup wd filesDir fs1 name p n c hres hpe hl

/-- C5, creating `notes` twice in an empty root. -/
theorem C5_second_create_conflicts_witness :
    CreateFile exampleWd mainFilesDir emptyRootFS
        (some (requestBody "notes".toList "hello".toList)) =
        (⟨StatusOK, Payload.written "File created successfully" "notes".toList⟩,
          emptyRootFS ++ [("/srv/files/notes.txt".toList, Node.file "hello".toList)]) ∧
      CreateFile exampleWd mainFilesDir
        (emptyRootFS ++ [("/srv/files/notes.txt".toList, Node.file "hello".toList)])
        (some (requestBody "notes".toList "other".toList)) =
        (⟨StatusConflict, Payload.error "File already exists"⟩,
          emptyRootFS ++ [("/srv/files/notes.txt".toList, Node.file "hello".toList)]) :=
  ⟨rfl, (C5_second_create_conflicts exampleWd mainFilesDir emptyRootFS
    (emptyRootFS ++ [("/srv/files/notes.txt".toList, Node.file "hello".toList)])
    ⟨StatusOK, Payload.written "File created successfully" "notes".toList⟩
    "notes".toList "hello".toList (requestBody "notes".toList "hello".toList)
    (requestBody "notes".toList "other".toList) rfl rfl rfl rfl rfl).1⟩

set_option maxRecDepth 200000 in
/-- C6 fails at a name of 300 letters `a` in an empty root: the resolver
accepts it, nothing exists at the resolved path, and `DeleteFile` answers 500,
not 404, because the removal fails with `ENAMETOOLONG`, which is not a
not-exist error. -/
theorem C6_delete_long_name_counterexample :
    getSafeFilePath exampleWd mainFilesDir (List.replicate 300 'a') =
        Except.ok ("/srv/files/".toList ++ List.replicate 300 'a' ++ dotTxt,
          List.replicate 300 'a' ++ dotTxt) ∧
      fsLookup emptyRootFS ("/srv/files/".toList ++ List.replicate 300 'a' ++ dotTxt) = none ∧
      Remove emptyRootFS ("/srv/files/".toList ++ List.replicate 300 'a' ++ dotTxt) =
        Except.error OsError.ENAMETOOLONG ∧
      DeleteFile exampleWd mainFilesDir emptyRootFS (List.replicate 300 'a') =
        (⟨StatusInternalServerError, Payload.error "Error deleting file"⟩, emptyRootFS) :=
  ⟨rfl, rfl, rfl, rfl⟩

/-- C6 as amended: `DeleteFile(name)` answers NotFound (404) when nothing
exists at the resolved path and the path can be walked there (no NUL byte, no
over-long path or component, every ancestor an existing directory), and also
when the walk itself fails with not-exist; when the walk fails with any other
error it answers 500.  A regular file at the resolved path is removed with
200, a directory is removed with 200 when it is empty and gives 500
otherwise.  When `DeleteFile` succeeds, the resolved path existed, it alone is
removed, and a following `GetFile(name)` answers NotFound (404). -/
theorem C6_delete_not_found_and_removal (wd : Option GoString) (filesDir : GoString) (fs : FS)
    (name : GoString) :
    (∀ p n, getSafeFilePath wd filesDir name = Except.ok (p, n) → pathError fs p = none →
      fsLookup fs p = none →
      DeleteFile wd filesDir fs name =
        (⟨StatusNotFound, Payload.error "File not found"⟩, fs)) ∧
    (∀ p n e, getSafeFilePath wd filesDir name = Except.ok (p, n) → pathError fs p = some e →
      DeleteFile wd filesDir fs name =
        (if e = OsError.ENOENT then ⟨StatusNotFound, Payload.error "File not found"⟩
          else ⟨StatusInternalServerError, Payload.error "Error deleting file"⟩, fs)) ∧
    (∀ p n c, getSafeFilePath wd filesDir name = Except.ok (p, n) → pathError fs p = none →
      fsLookup fs p = some (Node.file c) →
      DeleteFile wd filesDir fs name =
        (⟨StatusOK, Payload.deleted "File deleted successfully"⟩, fsRemove fs p)) ∧
    (∀ p n, getSafeFilePath wd filesDir name = Except.ok (p, n) → pathError fs p = none →
      fsLookup fs p = some Node.dir →
      DeleteFile wd filesDir fs name =
        if fs.any (fun e => (childName p e.1).isSome) = true then
          (⟨StatusInternalServerError, Payload.error "Error deleting file"⟩, fs)
        else (⟨StatusOK, Payload.deleted "File deleted successfully"⟩, fsRemove fs p)) ∧
    (∀ r fs1, DeleteFile wd filesDir fs name = (r, fs1) → r.status = StatusOK →
      ∃ p n, getSafeFilePath wd filesDir name = Except.ok (p, n) ∧
        (fsLookup fs p).isSome = true ∧ fsLookup fs1 p = none ∧
        (∀ q, q ≠ p → fsLookup fs1 q = fsLookup fs q) ∧
        GetFile wd filesDir fs1 name =
          (⟨StatusNotFound, Payload.error "File not found"⟩, fs1)) := by
  refine ⟨?_, ?_, ?_, ?_, ?_⟩
  · intro p n hres hpe hl
    simp [DeleteFile, hres, Remove, hpe, hl, IsNotExist]
  · intro p n e hres hpe
    simp only [DeleteFile, hres, Remove, hpe, IsNotExist]
    cases e <;> rfl
  · intro p n c hres hpe hl
    simp [DeleteFile, hres, Remove, hpe, hl]
  · intro p n hres hpe hl
    by_cases hch : fs.any (fun e => (childName p e.1).isSome) = true
    · simp [DeleteFile, hres, Remove, hpe, hl, hch, IsNotExist]
    · simp [DeleteFile, hres, Remove, hpe, hl, hch]
  · intro r fs1 h hok
    unfold DeleteFile at h
    cases hres : getSafeFilePath wd filesDir name with
    | error e =>
      rw [hres] at h
      rw [← (Prod.mk.inj h).1] at hok
      exact absurd hok (by decide)
    | ok pn =>
      obtain ⟨p, n⟩ := pn
      rw [hres] at h
      simp only at h
      cases hrm : Remove fs p with
      | error e =>
        rw [hrm] at h
        simp only at h
        split at h <;>
          · rw [← (Prod.mk.inj h).1] at hok
            exact absurd hok (by decide)
      | ok fs2 =>
        rw [hrm] at h
        have hfs : fs1 = fs2 := (Prod.mk.inj h).2.symm
        subst hfs
        obtain ⟨hpe, hsome, hrem⟩ := remove_ok fs fs1 p hrm
        have hother : ∀ q, q ≠ p → fsLookup fs1 q = fsLookup fs q := by
          intro q hq
          rw [hrem]
          exact fsLookup_fsRemove_other fs p q hq
        have hnone : fsLookup fs1 p = none := by
          rw [hrem]; exact fsLookup_fsRemove_same fs p
        have hpe1 : pathError fs1 p = none := by
          rw [pathError_congr fs fs1 p hother]; exact hpe
        exact ⟨p, n, rfl, hsome, hnone, hother,
          getFile_of_absent wd filesDir fs1 name p n hres hpe1 hnone⟩

/-- C6 as amended, deleting `notes` from an empty root (404) and from a root
that holds `notes.txt` (200, after which `GetFile` answers 404). -/
theorem C6_delete_not_found_and_removal_witness :
    DeleteFile exampleWd mainFilesDir emptyRootFS "notes".toList =
        (⟨StatusNotFound, Payload.error "File not found"⟩, emptyRootFS) ∧
      DeleteFile exampleWd mainFilesDir
          (emptyRootFS ++ [("/srv/files/notes.txt".toList, Node.file "hello".toList)])
          "notes".toList =
        (⟨StatusOK, Payload.deleted "File deleted successfully"⟩, emptyRootFS) ∧
      ∃ p n, getSafeFilePath exampleWd mainFilesDir "notes".toList = Except.ok (p, n) ∧
        (fsLookup (emptyRootFS ++ [("/srv/files/notes.txt".toList, Node.file "hello".toList)])
          p).isSome = true ∧ fsLookup emptyRootFS p = none ∧
        (∀ q, q ≠ p → fsLookup emptyRootFS q =
          fsLookup (emptyRootFS ++ [("/srv/files/notes.txt".toList, Node.file "hello".toList)])
            q) ∧
        GetFile exampleWd mainFilesDir emptyRootFS "notes".toList =
          (⟨StatusNotFound, Payload.error "File not found"⟩, emptyRootFS) :=
  ⟨(C6_delete_not_found_and_removal exampleWd mainFilesDir emptyRootFS "notes".toList).1
      "/srv/files/notes.txt".toList "notes.txt".toList rfl rfl rfl,
    (C6_delete_not_found_and_removal exampleWd mainFilesDir
      (emptyRootFS ++ [("/srv/files/notes.txt".toList, Node.file "hello".toList)])
      "notes".toList).2.2.1 "/srv/files/notes.txt".toList "notes.txt".toList "hello".toList
      rfl rfl rfl,
    (C6_delete_not_found_and_removal exampleWd mainFilesDir
      (emptyRootFS ++ [("/srv/files/notes.txt".toList, Node.file "hello".toList)])
      "notes".toList).2.2.2.2 ⟨StatusOK, Payload.deleted "File deleted successfully"⟩
      emptyRootFS rfl rfl⟩

/-- C7: `ListFiles` returns one record for exactly each non-directory entry
whose name ends in `.txt`, in the order of the entries, with `name` and
`displayName` the entry name without the suffix and `fullName` the entry
name; directories and entries without the suffix give no record.  After
creating `a` and `b` in an empty root it returns exactly the two records with
display names `a` and `b`. -/
theorem C7_list_files (wd : Option GoString) (filesDir : GoString) (fs : FS) :
    (∀ files, ReadDir wd fs filesDir = Except.ok files →
      ListFiles wd filesDir fs = (⟨StatusOK, Payload.files (specListing files)⟩, fs)) ∧
    (∀ files, listResponse files = specListing files) ∧
    (∀ files r, r ∈ listResponse files →
      r.DisplayName = r.Name ∧ r.FullName = r.Name ++ dotTxt ∧
        ∃ f ∈ files, f.IsDir = false ∧ f.Name = r.FullName) ∧
    (∀ c1 c2,
      ListFiles exampleWd mainFilesDir
        (CreateFile exampleWd mainFilesDir
          (CreateFile exampleWd mainFilesDir emptyRootFS
            (some (requestBody "a".toList c1))).2
          (some (requestBody "b".toList c2))).2 =
      (⟨StatusOK, Payload.files
        [⟨"a".toList, "a.txt".toList, "a".toList⟩, ⟨"b".toList, "b.txt".toList, "b".toList⟩]⟩,
        emptyRootFS ++ [("/srv/files/a.txt".toList, Node.file c1),
          ("/srv/files/b.txt".toList, Node.file c2)])) := by
  refine ⟨?_, listResponse_eq, ?_, ?_⟩
  · intro files h
    simp [ListFiles, h, listResponse_eq]
  · intro files r hr
    rw [listResponse_eq] at hr
    simp only [specListing, List.mem_map, List.mem_filter] at hr
    obtain ⟨f, ⟨hf, hcond⟩, rfl⟩ := hr
    have hc : f.IsDir = false ∧ dotTxt <:+ f.Name := by simpa using hcond
    refine ⟨rfl, ?_, f, hf, hc.1, rfl⟩
    obtain ⟨u, hu⟩ := hc.2
    simp only
    rw [← hu]
    simp [dotTxt]
  · intro c1 c2
    rfl

/-- C7, on a listing with a text file, a directory named like one and a file
without the suffix. -/
theorem C7_list_files_witness :
    ListFiles exampleWd mainFilesDir
        (emptyRootFS ++ [("/srv/files/b.txt".toList, Node.dir),
          ("/srv/files/a.txt".toList, Node.file "x".toList),
          ("/srv/files/c.md".toList, Node.file "y".toList)]) =
      (⟨StatusOK, Payload.files [⟨"a".toList, "a.txt".toList, "a".toList⟩]⟩,
        emptyRootFS ++ [("/srv/files/b.txt".toList, Node.dir),
          ("/srv/files/a.txt".toList, Node.file "x".toList),
          ("/srv/files/c.md".toList, Node.file "y".toList)]) :=
  (C7_list_files exampleWd mainFilesDir
    (emptyRootFS ++ [("/srv/files/b.txt".toList, Node.dir),
      ("/srv/files/a.txt".toList, Node.file "x".toList),
      ("/srv/files/c.md".toList, Node.file "y".toList)])).1
    [⟨"a.txt".toList, false⟩, ⟨"b.txt".toList, true⟩, ⟨"c.md".toList, false⟩] rfl

/-- C8 fails: the empty string, `.` and `/` are all accepted under the root
`files`, with the canonical names `..txt`, `..txt` and `/.txt`; the last one
addresses a file named exactly `.txt`. -/
theorem C8_degenerate_names_counterexample :
    getSafeFilePath exampleWd mainFilesDir [] =
        Except.ok ("/srv/files/..txt".toList, "..txt".toList) ∧
      getSafeFilePath exampleWd mainFilesDir ".".toList =
        Except.ok ("/srv/files/..txt".toList, "..txt".toList) ∧
      getSafeFilePath exampleWd mainFilesDir "/".toList =
        Except.ok ("/srv/files/.txt".toList, "/.txt".toList) :=
  ⟨rfl, rfl, rfl⟩

/-- C8 as amended: an input whose base name is degenerate is not rejected on
that account.  Under a non-empty root that does not resolve to `/`, the empty
string and `.` are accepted with canonical name `..txt`, and a string of
separators only is accepted with canonical name `/.txt`, addressing the file
`.txt` in the root. -/
theorem C8_degenerate_names_accepted (wd : Option GoString) (filesDir s : GoString)
    (hD : filesDir ≠ []) (hwd : ∀ w, wd = some w → rootedOf w = true)
    (hroot : (Abs wd filesDir).1 ≠ ['/']) :
    ((s = [] ∨ s = ['.']) →
      ∃ p, getSafeFilePath wd filesDir s = Except.ok (p, "..txt".toList) ∧
        (rootedOf filesDir = true ∨ wd.isSome = true →
          p = (Abs wd filesDir).1 ++ "/..txt".toList)) ∧
    ((s ≠ [] ∧ ∀ c ∈ s, c = '/') →
      ∃ p, getSafeFilePath wd filesDir s = Except.ok (p, "/.txt".toList) ∧
        (rootedOf filesDir = true ∨ wd.isSome = true →
          p = (Abs wd filesDir).1 ++ "/.txt".toList)) := by
  have hres := getSafeFilePath_result wd filesDir s hD hwd
  rw [if_neg hroot] at hres
  constructor
  · intro hs
    have hname : safeNameOf s = "..txt".toList := by
      rcases hs with rfl | rfl <;> rfl
    have hlast : lastElement (safeNameOf s) = "..txt".toList := by
      rw [hname]; rfl
    rw [hname] at hres
    by_cases hav : rootedOf filesDir = true ∨ wd.isSome = true
    · rw [if_pos hav] at hres
      exact ⟨_, hres, fun _ => rfl⟩
    · rw [if_neg hav] at hres
      exact ⟨_, hres, fun h => absurd h hav⟩
  · intro hs
    have hname : safeNameOf s = "/.txt".toList := by
      simp only [safeNameOf, base_slashes s hs.1 hs.2]
      rfl
    have hlast : lastElement (safeNameOf s) = ".txt".toList := by
      rw [hname]; rfl
    rw [hlast, hname] at hres
    by_cases hav : rootedOf filesDir = true ∨ wd.isSome = true
    · rw [if_pos hav] at hres
      exact ⟨_, hres, fun _ => rfl⟩
    · rw [if_neg hav] at hres
      exact ⟨_, hres, fun h => absurd h hav⟩

/-- C8 as amended, at the input `//` under the root `files`. -/
theorem C8_degenerate_names_accepted_witness :
    mainFilesDir ≠ [] ∧ (Abs exampleWd mainFilesDir).1 ≠ ['/'] ∧
      ∃ p, getSafeFilePath exampleWd mainFilesDir "//".toList =
          Except.ok (p, "/.txt".toList) ∧
        (rootedOf mainFilesDir = true ∨ exampleWd.isSome = true →
          p = (Abs exampleWd mainFilesDir).1 ++ "/.txt".toList) :=
  ⟨by decide, by decide,
    (C8_degenerate_names_accepted exampleWd mainFilesDir "//".toList (by decide)
      (by intro w hw; cases hw; rfl) (by decide)).2 ⟨by decide, by decide⟩⟩

/-- The package variable `filesDir` before `SetFilesDir` is called holds the
empty string, which is no configured root: `main` sets `files` before any
route runs.  In that state `Join` drops the root, so the input `/` is
rejected although the working directory is `/srv`. -/
theorem getSafeFilePath_unset_root :
    (Abs exampleWd []).1 = "/srv".toList ∧ (Abs exampleWd []).1 ≠ ['/'] ∧
      getSafeFilePath exampleWd [] "/".toList = Except.error OsError.ErrInvalid :=
  ⟨rfl, by decide, rfl⟩

/-- C9: on a platform whose path separator is `/`, for a configured root (a
non-empty string, such as the `files` of `main`; `os.Getwd`, when it succeeds,
returns a rooted path), `getSafeFilePath` returns an error if and only if the
absolute form of the root is `/`: with such a root every input is rejected,
with any other the rejection branch is unreachable and every input, traversal
attempts included, is accepted. -/
theorem C9_rejects_iff_root_is_slash (wd : Option GoString) (filesDir s : GoString)
    (hD : filesDir ≠ []) (hwd : ∀ w, wd = some w → rootedOf w = true) :
    ((∃ err, getSafeFilePath wd filesDir s = Except.error err) ↔
        (Abs wd filesDir).1 = ['/']) ∧
      ((Abs wd filesDir).1 = ['/'] →
        getSafeFilePath wd filesDir s = Except.error OsError.ErrInvalid) ∧
      ((Abs wd filesDir).1 ≠ ['/'] →
        ∃ p, getSafeFilePath wd filesDir s = Except.ok (p, safeNameOf s)) := by
  have hres := getSafeFilePath_result wd filesDir s hD hwd
  have hrej : (Abs wd filesDir).1 = ['/'] →
      getSafeFilePath wd filesDir s = Except.error OsError.ErrInvalid := by
    intro hroot
    rw [hres, if_pos hroot]
  have hacc : (Abs wd filesDir).1 ≠ ['/'] →
      ∃ p, getSafeFilePath wd filesDir s = Except.ok (p, safeNameOf s) := by
    intro hroot
    rw [if_neg hroot] at hres
    split at hres
    · exact ⟨_, hres⟩
    · exact ⟨_, hres⟩
  refine ⟨⟨?_, fun hroot => ⟨_, hrej hroot⟩⟩, hrej, hacc⟩
  rintro ⟨err, herr⟩
  by_contra hroot
  obtain ⟨p, hp⟩ := hacc hroot
  rw [hp] at herr
  cases herr

/-- C9, at a traversal attempt under the root `files` (accepted) and under
the root `/` (rejected). -/
theorem C9_rejects_iff_root_is_slash_witness :
    (∃ p, getSafeFilePath exampleWd mainFilesDir "../../etc/passwd".toList =
        Except.ok (p, safeNameOf "../../etc/passwd".toList)) ∧
      getSafeFilePath exampleWd "/".toList "../../etc/passwd".toList =
        Except.error OsError.ErrInvalid :=
  ⟨(C9_rejects_iff_root_is_slash exampleWd mainFilesDir "../../etc/passwd".toList (by decide)
      (by intro w hw; cases hw; rfl)).2.2 (by decide),
    (C9_rejects_iff_root_is_slash exampleWd "/".toList "../../etc/passwd".toList (by decide)
      (by intro w hw; cases hw; rfl)).2.1 (by decide)⟩

/-- C10 fails at the input `a.txt.txt`: the file written is `a.txt.txt`, the
display name handed back is `a.txt`, and resolving that addresses `a.txt`. -/
theorem C10_display_name_counterexample :
    getSafeFilePath exampleWd mainFilesDir "a.txt.txt".toList =
        Except.ok ("/srv/files/a.txt.txt".toList, "a.txt.txt".toList) ∧
      TrimSuffix "a.txt.txt".toList dotTxt = "a.txt".toList ∧
      getSafeFilePath exampleWd mainFilesDir (TrimSuffix "a.txt.txt".toList dotTxt) =
        Except.ok ("/srv/files/a.txt".toList, "a.txt".toList) :=
  ⟨rfl, rfl, rfl⟩

theorem safeNameOf_eq_trim_append (s : GoString) :
    safeNameOf s = TrimSuffix (safeNameOf s) dotTxt ++ dotTxt := by
  have hsuf : dotTxt <:+ safeNameOf s := by
    rcases safeNameOf_shape s with h | ⟨_, h⟩
    · rw [h]; exact ⟨['/'], rfl⟩
    · exact h
  obtain ⟨u, hu⟩ := hsuf
  rw [← hu, trimSuffix_append]

/-- The canonical name of a display name `d` is again `d + ".txt"` exactly
when `d` is non-empty and does not itself end in `.txt`. -/
theorem safeNameOf_display (s : GoString) :
    safeNameOf (TrimSuffix (safeNameOf s) dotTxt) = safeNameOf s ↔
      (TrimSuffix (safeNameOf s) dotTxt ≠ [] ∧
        HasSuffix (TrimSuffix (safeNameOf s) dotTxt) dotTxt = false) := by
  have hdec := safeNameOf_eq_trim_append s
  generalize hd : TrimSuffix (safeNameOf s) dotTxt = d at hdec
  have hshape := safeNameOf_shape s
  rw [hdec] at hshape ⊢
  constructor
  · intro h
    constructor
    · intro hd0
      rw [hd0] at h
      exact absurd h (by decide)
    · by_contra hsuf
      have hsuf2 : HasSuffix d dotTxt = true := by simpa using hsuf
      have hno : '/' ∉ d := by
        rcases hshape with h1 | ⟨hname, _⟩
        · have : d = ['/'] :=
            List.append_cancel_right (h1.trans (by rfl : '/' :: dotTxt = ['/'] ++ dotTxt))
          rw [this] at hsuf2
          exact absurd hsuf2 (by decide)
        · intro hm
          exact hname.2.1 (List.mem_append.2 (Or.inl hm))
      have hne : d ≠ [] := by
        intro h0
        rw [h0] at hsuf2
        exact absurd hsuf2 (by decide)
      have : safeNameOf d = d := by simp [safeNameOf, base_name d hne hno, hsuf2]
      rw [this] at h
      have := congrArg List.length h
      simp [dotTxt] at this
  · rintro ⟨hne, hsuf⟩
    rcases hshape with h1 | ⟨hname, _⟩
    · have : d = ['/'] :=
        List.append_cancel_right (h1.trans (by rfl : '/' :: dotTxt = ['/'] ++ dotTxt))
      rw [this]
      rfl
    · have hno : '/' ∉ d := fun hm => hname.2.1 (List.mem_append.2 (Or.inl hm))
      exact safeNameOf_plain d hne hno hsuf

/-- C10 as amended: for an input `s` that `getSafeFilePath` accepts with
canonical name `n`, resolving the display name handed back to the client (`n`
with one trailing `.txt` stripped) yields the same path and canonical name if
and only if that display name is non-empty and does not itself end in `.txt`. -/
theorem C10_display_name_round_trip (wd : Option GoString) (filesDir s p n : GoString)
    (h : getSafeFilePath wd filesDir s = Except.ok (p, n)) :
    getSafeFilePath wd filesDir (TrimSuffix n dotTxt) = Except.ok (p, n) ↔
      (TrimSuffix n dotTxt ≠ [] ∧ HasSuffix (TrimSuffix n dotTxt) dotTxt = false) := by
  have hn := getSafeFilePath_name wd filesDir s p n h
  rw [hn, ← safeNameOf_display s]
  constructor
  · intro h2
    exact getSafeFilePath_name wd filesDir _ p _ h2 ▸ rfl
  · intro h2
    rw [getSafeFilePath_congr wd filesDir _ s h2, h, hn]

/-- C10 as amended, at the input `sub/notes.txt`, whose display name is `notes`. -/
theorem C10_display_name_round_trip_witness :
    getSafeFilePath exampleWd mainFilesDir "sub/notes.txt".toList =
        Except.ok ("/srv/files/notes.txt".toList, "notes.txt".toList) ∧
      getSafeFilePath exampleWd mainFilesDir (TrimSuffix "notes.txt".toList dotTxt) =
        Except.ok ("/srv/files/notes.txt".toList, "notes.txt".toList) :=
  ⟨rfl, (C10_display_name_round_trip exampleWd mainFilesDir "sub/notes.txt".toList
    "/srv/files/notes.txt".toList "notes.txt".toList rfl).2 ⟨by decide, by decide⟩⟩

end NotesApp
